import Mathlib

/-!
Lustre: a shallow embedding of `llite/iod.c`, `linux/lustre_net.h` and
`lnet/klnds/ralnd/ralnd_modparams.c`

The C code is embedded as pure Lean functions over explicit state.

* C arrays are `List`s, read with `List.getD` and written with `List.set`.
* C `int` loop counters that never become negative (`stride`, `i`, `j`) are `Nat`;
  `num` keeps its sign and is an `Int`.
* Loops are structural recursions on a fuel argument that bounds the number of iterations;
  a loop that does not finish within its bound yields `none`.
* An `int` computation that would leave the range of `int` yields `none` as well.
* A failed `LASSERT` yields `none` or an error value; unsigned fields are `Nat`, reduced modulo
  the width of the field where the code can wrap, and signed ones are `Int`.
* Macros that the preprocessor evaluates are functions of the values of the macros they use.
-/

namespace Lustre

/-! ## `llite/iod.c` : `sort_brw_pages` -/

/-- The record `struct brw_page` (declared in `linux/obd.h`): the page pointer `pg`, the target
offset `off` (an `obd_off`, unsigned 64 bit), the byte count `count` (an `int`) and the flags. -/
structure brw_page where
  pg : Nat
  off : Nat
  count : Int
  flag : Nat
deriving DecidableEq, Repr, Inhabited

/-- Largest value of a C `int`. -/
def INT_MAX : Int := 2147483647

/-- The first loop of `sort_brw_pages`:
`for (stride = 1; stride < num; stride = (stride*3) + 1) ;`
returning the final `stride`.  The result is `none` when `stride*3 + 1` leaves `int`. -/
def sort_stride : Nat → Int → Nat → Option Nat
  | 0, _, _ => none
  | fuel + 1, num, stride =>
    if (stride : Int) < num then
      if ((stride * 3 + 1 : Nat) : Int) > INT_MAX then none
      else sort_stride fuel num (stride * 3 + 1)
    else some stride

/-- The innermost loop of `sort_brw_pages`:
`while (j >= stride && array[j - stride].off > tmp.off) { array[j] = array[j - stride];
j -= stride; }` returning the array and the final `j`. -/
def sort_while : Nat → Nat → brw_page → List brw_page → Nat → Option (List brw_page × Nat)
  | 0, _, _, _, _ => none
  | fuel + 1, stride, tmp, array, j =>
    if j ≥ stride ∧ (array.getD (j - stride) default).off > tmp.off then
      sort_while fuel stride tmp (array.set j (array.getD (j - stride) default)) (j - stride)
    else some (array, j)

/-- The loop `for (i = stride; i < num; i++) { tmp = array[i]; j = i; while ...; array[j] = tmp; }`
of `sort_brw_pages`, started at `i`. -/
def sort_for : Nat → Nat → Int → List brw_page → Nat → Option (List brw_page)
  | 0, _, _, _, _ => none
  | fuel + 1, stride, num, array, i =>
    if (i : Int) < num then
      let tmp := array.getD i default
      match sort_while (i + 1) stride tmp array i with
      | none => none
      | some (array, j) => sort_for fuel stride num (array.set j tmp) (i + 1)
    else some array

/-- The loop `do { stride /= 3; for ...; } while (stride > 1);` of `sort_brw_pages`. -/
def sort_do : Nat → Int → List brw_page → Nat → Option (List brw_page)
  | 0, _, _, _ => none
  | fuel + 1, num, array, stride =>
    match sort_for (num.toNat + 1) (stride / 3) num array (stride / 3) with
    | none => none
    | some array => if stride / 3 > 1 then sort_do fuel num array (stride / 3) else some array

/-- The function `void sort_brw_pages(struct brw_page *array, int num)`: the array after the
call. -/
def sort_brw_pages (array : List brw_page) (num : Int) : Option (List brw_page) :=
  if num = 1 then some array
  else
    match sort_stride (num.toNat + 1) num 1 with
    | none => none
    | some stride => sort_do (stride + 1) num array stride

/-- Entries with the given offsets and distinct page pointers `0, 1, 2, ...`. -/
def pagesOfOffsets (offs : List Nat) : List brw_page :=
  (List.range offs.length).zipWith (fun i o => ⟨i, o, 4096, 0⟩) offs

/-- Entries of equal `off` stand in `out` in the same relative order as in `inp`: for every
offset `k` the entries with that offset, read from left to right, are the same list. -/
def sameOrderPerOffset (inp out : List brw_page) : Prop :=
  ∀ k : Nat, out.filter (fun p => decide (p.off = k)) = inp.filter (fun p => decide (p.off = k))

/-- The increments `1, 4, 13, 40, ...` of the shellsort: `s ↦ 3 s + 1` starting from 1. -/
def strideSeq : Nat → Nat
  | 0 => 1
  | k + 1 => strideSeq k * 3 + 1

/-- The increments `strideSeq m, ..., strideSeq 1, strideSeq 0` in decreasing order. -/
def strideList : Nat → List Nat
  | 0 => [strideSeq 0]
  | m + 1 => strideSeq (m + 1) :: strideList m

/-- The largest `num` for which the search for the first stride stays within `int`:
the member `1743392200` of the sequence of increments; the next one is `5230176601`. -/
def SORT_NUM_MAX : Int := 1743392200

/-- The loop `do { stride /= 3; for ...; } while (stride > 1);` of `sort_brw_pages` as in
`sort_do`, returning in addition the value of `stride` used by each pass, in the order of use. -/
def sort_do_trace : Nat → Int → List brw_page → Nat → Option (List brw_page × List Nat)
  | 0, _, _, _ => none
  | fuel + 1, num, array, stride =>
    match sort_for (num.toNat + 1) (stride / 3) num array (stride / 3) with
    | none => none
    | some array =>
      if stride / 3 > 1 then
        match sort_do_trace fuel num array (stride / 3) with
        | none => none
        | some (out, strides) => some (out, stride / 3 :: strides)
      else some (array, [stride / 3])

/-- The function `sort_brw_pages` as above, returning in addition the strides of its passes in
the order of use (none when it returns at `num == 1`). -/
def sort_brw_pages_trace (array : List brw_page) (num : Int) :
    Option (List brw_page × List Nat) :=
  if num = 1 then some (array, [])
  else
    match sort_stride (num.toNat + 1) num 1 with
    | none => none
    | some stride => sort_do_trace (stride + 1) num array stride

/-! ## `linux/lustre_net.h` : the maxima for bulk I/O

The preprocessor computes with the values of the macros, which are natural numbers here.  The
arithmetic of `#if` has 64 bits; the one operation of the header that can leave them, the
product `PTLRPC_MAX_BRW_PAGES * PAGE_SIZE`, wraps. -/

/-- The values of the two macros `PTLRPC_MAX_BRW_SIZE` and `PTLRPC_MAX_BRW_PAGES`. -/
structure brw_max where
  PTLRPC_MAX_BRW_SIZE : Nat
  PTLRPC_MAX_BRW_PAGES : Nat
deriving DecidableEq, Repr

/-- The ways in which the preprocessor refuses the header. -/
inductive cpp_reject where
  | division_by_zero
  | not_a_power_of_two
deriving DecidableEq, Repr

/-- The first definitions: `#define PTLRPC_MAX_BRW_SIZE (1 << 20)` and
`#define PTLRPC_MAX_BRW_PAGES 512`. -/
def brw_define : brw_max := ⟨1 <<< 20, 512⟩

/-- The step "...reduce to fit...": the two `#if (defined(..) && (.. < ..))` blocks.  A limit
that is not defined is `none`. -/
def brw_reduce (PTL_MTU PTL_MD_MAX_IOV : Option Nat) (b : brw_max) : brw_max :=
  let b :=
    match PTL_MTU with
    | some mtu => if mtu < b.PTLRPC_MAX_BRW_SIZE then { b with PTLRPC_MAX_BRW_SIZE := mtu } else b
    | none => b
  match PTL_MD_MAX_IOV with
  | some iov => if iov < b.PTLRPC_MAX_BRW_PAGES then { b with PTLRPC_MAX_BRW_PAGES := iov } else b
  | none => b

/-- The product of two values as `#if` computes it: `PAGE_SIZE` is `(1UL << PAGE_SHIFT)` in
the kernel, an unsigned operand, so the product with it is taken in 64 bits unsigned. -/
def cpp_mul (a b : Nat) : Nat := (a * b) % 2 ^ 64

/-- The step "...and make consistent..." under `__KERNEL__`:
`#if (SIZE > PAGES * PAGE_SIZE)` redefines `SIZE` as `(PAGES * PAGE_SIZE)`, `#else` redefines
`PAGES` as `(SIZE / PAGE_SIZE)`; that quotient is evaluated by the `#if` that follows, which
the preprocessor refuses for a zero divisor. -/
def brw_consistent (PAGE_SIZE : Nat) (b : brw_max) : Except cpp_reject brw_max :=
  if b.PTLRPC_MAX_BRW_SIZE > cpp_mul b.PTLRPC_MAX_BRW_PAGES PAGE_SIZE then
    .ok { b with PTLRPC_MAX_BRW_SIZE := cpp_mul b.PTLRPC_MAX_BRW_PAGES PAGE_SIZE }
  else if PAGE_SIZE = 0 then .error .division_by_zero
  else .ok { b with PTLRPC_MAX_BRW_PAGES := b.PTLRPC_MAX_BRW_SIZE / PAGE_SIZE }

/-- The test `#if ((PAGES & (PAGES - 1)) != 0)` followed by `#error`.  For `PAGES` equal to 0
the preprocessor computes `0 & (0 - 1)`, which is 0 whatever the representation of `0 - 1`;
the truncated subtraction of `Nat` gives `0 & 0`, the same value. -/
def brw_power_of_two (b : brw_max) : Except cpp_reject brw_max :=
  if (b.PTLRPC_MAX_BRW_PAGES &&& (b.PTLRPC_MAX_BRW_PAGES - 1)) ≠ 0 then
    .error .not_a_power_of_two
  else .ok b

/-- The values of the two macros after the header has been read in a kernel build, for the
given `PAGE_SIZE` and transport limits. -/
def brw_kernel (PAGE_SIZE : Nat) (PTL_MTU PTL_MD_MAX_IOV : Option Nat) :
    Except cpp_reject brw_max :=
  match brw_consistent PAGE_SIZE (brw_reduce PTL_MTU PTL_MD_MAX_IOV brw_define) with
  | .error e => .error e
  | .ok b => brw_power_of_two b

/-! ## `linux/lustre_net.h` : the constants of the services -/

def LDLM_BUFSIZE : Nat := 8 * 1024
def LDLM_MAXREQSIZE : Nat := 5 * 1024
def MGS_BUFSIZE : Nat := 8 * 1024
def MGS_MAXREQSIZE : Nat := 5 * 1024
def MDS_BUFSIZE : Nat := 8 * 1024
def MDS_MAXREQSIZE : Nat := 5 * 1024
def OST_BUFSIZE : Nat := 8 * 1024
def OST_MAXREQSIZE : Nat := 5 * 1024
def PTLBD_BUFSIZE : Nat := 32 * 1024
def PTLBD_MAXREQSIZE : Nat := 1024

/-- The rule of the header: "Request buffers are considered full when less than ?_MAXREQSIZE
is left in them", for a buffer of `bufsize` bytes of which `used` are taken. -/
def request_buffer_full (bufsize maxreqsize used : Nat) : Bool :=
  decide (bufsize - used < maxreqsize)

def MGT_MAX_THREADS : Nat := 8
def MDT_MAX_THREADS : Nat := 32
def OST_MAX_THREADS : Nat := 36

/-- The macro `MGT_NUM_THREADS`:
`max(min_t(unsigned long, num_physpages / 8192, MGT_MAX_THREADS), 2UL)`. -/
def MGT_NUM_THREADS (num_physpages : Nat) : Nat :=
  max (min (num_physpages / 8192) MGT_MAX_THREADS) 2

/-- The macro `MDT_NUM_THREADS`. -/
def MDT_NUM_THREADS (num_physpages : Nat) : Nat :=
  max (min (num_physpages / 8192) MDT_MAX_THREADS) 2

/-- The macro `OST_NUM_THREADS`. -/
def OST_NUM_THREADS (num_physpages : Nat) : Nat :=
  max (min (num_physpages / 8192) OST_MAX_THREADS) 2

/-- The range `[lo, hi]` applied to `x`, as the specification words it. -/
def clampTo (lo hi x : Nat) : Nat :=
  if x < lo then lo else if hi < x then hi else x

/-! ## `linux/lustre_net.h` : `enum rq_phase` -/

/-- The enumeration `enum rq_phase`. -/
inductive rq_phase where
  | RQ_PHASE_NEW
  | RQ_PHASE_RPC
  | RQ_PHASE_BULK
  | RQ_PHASE_INTERPRET
  | RQ_PHASE_COMPLETE
deriving DecidableEq, Repr

/-- The numeric value the header gives each enumerator. -/
def rq_phase.val : rq_phase → Nat
  | .RQ_PHASE_NEW => 0xebc0de00
  | .RQ_PHASE_RPC => 0xebc0de01
  | .RQ_PHASE_BULK => 0xebc0de02
  | .RQ_PHASE_INTERPRET => 0xebc0de03
  | .RQ_PHASE_COMPLETE => 0xebc0de04

/-! ## `linux/lustre_net.h` : the swab masks of a request -/

/-- The two fields `__u32 rq_req_swab_mask` and `__u32 rq_rep_swab_mask` of
`struct ptlrpc_request`; the other fields play no part in the macros below. -/
structure ptlrpc_request where
  rq_req_swab_mask : Nat
  rq_rep_swab_mask : Nat
deriving DecidableEq, Repr

/-- The operand `(1 << (idx))` as it meets the `__u32` mask: converted to 32 bits unsigned. -/
def swab_bit (idx : Nat) : Nat := (1 <<< idx) % 2 ^ 32

/-- The macro `LASSERT_REQSWAB(rq, idx)`; `none` is a failed `LASSERT`.  The index is the
value of `idx` in the comparison with `sizeof (..) * 8`, that is after conversion to `size_t`. -/
def LASSERT_REQSWAB (rq : ptlrpc_request) (idx : Nat) : Option ptlrpc_request :=
  if ¬ idx < 4 * 8 then none
  else if ¬ (rq.rq_req_swab_mask &&& swab_bit idx) = 0 then none
  else some { rq with rq_req_swab_mask := rq.rq_req_swab_mask ||| swab_bit idx }

/-- The macro `LASSERT_REPSWAB(rq, idx)`; `none` is a failed `LASSERT`. -/
def LASSERT_REPSWAB (rq : ptlrpc_request) (idx : Nat) : Option ptlrpc_request :=
  if ¬ idx < 4 * 8 then none
  else if ¬ (rq.rq_rep_swab_mask &&& swab_bit idx) = 0 then none
  else some { rq with rq_rep_swab_mask := rq.rq_rep_swab_mask ||| swab_bit idx }

/-- The macro `LASSERT_REQSWABBED(rq, idx)`: whether its `LASSERT` passes. -/
def LASSERT_REQSWABBED (rq : ptlrpc_request) (idx : Nat) : Bool :=
  decide (idx < 4 * 8) && decide ((rq.rq_req_swab_mask &&& swab_bit idx) ≠ 0)

/-- The macro `LASSERT_REPSWABBED(rq, idx)`: whether its `LASSERT` passes. -/
def LASSERT_REPSWABBED (rq : ptlrpc_request) (idx : Nat) : Bool :=
  decide (idx < 4 * 8) && decide ((rq.rq_rep_swab_mask &&& swab_bit idx) ≠ 0)

/-- A sequence of invocations `LASSERT_REQSWAB(rq, idx)`, one for each index of the list in
turn; `none` as soon as one of them fails. -/
def LASSERT_REQSWAB_seq : ptlrpc_request → List Nat → Option ptlrpc_request
  | rq, [] => some rq
  | rq, idx :: rest =>
    match LASSERT_REQSWAB rq idx with
    | none => none
    | some rq => LASSERT_REQSWAB_seq rq rest

/-- A sequence of invocations `LASSERT_REPSWAB(rq, idx)`. -/
def LASSERT_REPSWAB_seq : ptlrpc_request → List Nat → Option ptlrpc_request
  | rq, [] => some rq
  | rq, idx :: rest =>
    match LASSERT_REPSWAB rq idx with
    | none => none
    | some rq => LASSERT_REPSWAB_seq rq rest

/-! ## `linux/lustre_net.h` : the reference count of a reply state -/

/-- The conversion of an integer to the C type `int` (32 bits, two's complement). -/
def to_int (x : Int) : Int := (x + 2 ^ 31) % 2 ^ 32 - 2 ^ 31

/-- The field `atomic_t rs_refcount` of `struct ptlrpc_reply_state`, and whether the state has
been handed to `lustre_free_reply_state` (of which the header has the declaration only). -/
structure ptlrpc_reply_state where
  rs_refcount : Int
  freed : Bool
deriving DecidableEq, Repr

/-- The kernel's `atomic_inc`: the counter wraps within `int`. -/
def atomic_inc (v : Int) : Int := to_int (v + 1)

/-- The kernel's `atomic_dec_and_test`: the lowered counter, and whether it has become 0. -/
def atomic_dec_and_test (v : Int) : Int × Bool := (to_int (v - 1), decide (to_int (v - 1) = 0))

/-- The call `lustre_free_reply_state(rs)`, recorded in the flag `freed`. -/
def lustre_free_reply_state (rs : ptlrpc_reply_state) : ptlrpc_reply_state :=
  { rs with freed := true }

/-- The function `ptlrpc_rs_addref`; `none` is a failed `LASSERT`. -/
def ptlrpc_rs_addref (rs : ptlrpc_reply_state) : Option ptlrpc_reply_state :=
  if ¬ rs.rs_refcount > 0 then none
  else some { rs with rs_refcount := atomic_inc rs.rs_refcount }

/-- The function `ptlrpc_rs_decref`; `none` is a failed `LASSERT`. -/
def ptlrpc_rs_decref (rs : ptlrpc_reply_state) : Option ptlrpc_reply_state :=
  if ¬ rs.rs_refcount > 0 then none
  else
    let r := atomic_dec_and_test rs.rs_refcount
    let rs := { rs with rs_refcount := r.1 }
    if r.2 then some (lustre_free_reply_state rs) else some rs

/-! ## `llite/iod.c` : `llwp_consume_page`

`PAGE_SHIFT` and `LLWP_MAX_PAGES` (which is `PTL_MD_MAX_IOV`) are parameters.  `obd_off` is
unsigned 64 bit, `loff_t` signed 64 bit, `unsigned long` is taken to be 64 bits wide. -/

/-- The macro `PAGE_SIZE`, `(1UL << PAGE_SHIFT)`. -/
def PAGE_SIZE (PAGE_SHIFT : Nat) : Nat := (1 <<< PAGE_SHIFT) % 2 ^ 64

/-- The conversion of an integer to an unsigned 64 bit type. -/
def to_u64 (x : Int) : Nat := (x % 2 ^ 64).toNat

/-- The operator `~` on an unsigned 64 bit value. -/
def not_u64 (x : Nat) : Nat := 2 ^ 64 - 1 - x

/-- The macro `PAGE_MASK`, `(~(PAGE_SIZE-1))`. -/
def PAGE_MASK (PAGE_SHIFT : Nat) : Nat := not_u64 ((PAGE_SIZE PAGE_SHIFT + (2 ^ 64 - 1)) % 2 ^ 64)

/-- The flag `OBD_BRW_CREATE` (defined in `linux/lustre_idl.h`; nothing below depends on its
value). -/
def OBD_BRW_CREATE : Nat := 0x04

/-- The fields of `struct page` the function touches: its address (what `pg->pg = page`
stores), `index`, the lock bit that `unlock_page` clears and the reference count that
`page_cache_get` raises. -/
structure page where
  addr : Nat
  index : Nat
  locked : Bool
  count : Int
deriving DecidableEq, Repr

/-- The field `loff_t i_size` of `struct inode`. -/
structure inode where
  i_size : Int
deriving DecidableEq, Repr

/-- The record `struct ll_writeback_pages`: the bit fields `has_whole_pages:1`, `num_frags:2`,
`num_pages:29` and the array `pgs[LLWP_MAX_PAGES]`. -/
structure ll_writeback_pages where
  has_whole_pages : Nat
  num_frags : Nat
  num_pages : Nat
  pgs : List brw_page
deriving DecidableEq, Repr

/-- The ways in which a call of `llwp_consume_page` can go wrong: a failed `LASSERT`, or a
write behind the end of `pgs`. -/
inductive llwp_fault where
  | lbug
  | out_of_bounds
deriving DecidableEq, Repr

/-- What a call of `llwp_consume_page` leaves behind: the batch, the page, the value returned. -/
structure llwp_result where
  llwp : ll_writeback_pages
  page : page
  rc : Int
deriving DecidableEq, Repr

/-- The kernel's `unlock_page`. -/
def unlock_page (p : page) : page := { p with locked := false }

/-- The kernel's `page_cache_get`. -/
def page_cache_get (p : page) : page := { p with count := atomic_inc p.count }

/-- The statements of `llwp_consume_page` from the label `out:` on. -/
def llwp_out (LLWP_MAX_PAGES : Nat) (llwp : ll_writeback_pages) (p : page) : llwp_result :=
  if llwp.num_frags = 3 ∨ llwp.num_pages = LLWP_MAX_PAGES then ⟨llwp, p, -1⟩
  else ⟨llwp, p, 0⟩

/-- The function `llwp_consume_page`.  The slot `*pg` is built in a local record and stored
into `pgs` once its fields are final; nothing reads `pgs` in between. -/
def llwp_consume_page (PAGE_SHIFT LLWP_MAX_PAGES : Nat) (llwp : ll_writeback_pages)
    (ino : inode) (p : page) : Except llwp_fault llwp_result :=
  let off := (p.index * 2 ^ PAGE_SHIFT) % 2 ^ 64
  if off ≥ to_u64 ino.i_size then
    .ok (llwp_out LLWP_MAX_PAGES llwp (unlock_page p))
  else
    let p := page_cache_get p
    let slot := llwp.num_pages
    if ¬ slot < LLWP_MAX_PAGES then .error .out_of_bounds
    else
      let llwp := { llwp with num_pages := (llwp.num_pages + 1) % 2 ^ 29 }
      let pg : brw_page := ⟨p.addr, off, to_int (PAGE_SIZE PAGE_SHIFT), OBD_BRW_CREATE⟩
      let pg : brw_page :=
        if (pg.off + to_u64 pg.count) % 2 ^ 64 > to_u64 ino.i_size then
          { pg with count := to_int (to_u64 ino.i_size &&& not_u64 (PAGE_MASK PAGE_SHIFT) : Nat) }
        else pg
      let llwp :=
        if to_u64 pg.count = PAGE_SIZE PAGE_SHIFT then
          if llwp.has_whole_pages = 0 then
            { llwp with has_whole_pages := 1, num_frags := (llwp.num_frags + 1) % 4 }
          else llwp
        else { llwp with num_frags := (llwp.num_frags + 1) % 4 }
      if ¬ pg.count ≥ 0 then .error .lbug
      else .ok (llwp_out LLWP_MAX_PAGES { llwp with pgs := llwp.pgs.set slot pg } p)

/-- A batch of two slots of which the first holds a whole page, for the examples. -/
def llwp_example : ll_writeback_pages :=
  ⟨1, 1, 1, [⟨3, 0, 4096, OBD_BRW_CREATE⟩, default]⟩

/-- A batch of four slots of which the first holds a whole page, for the examples. -/
def llwp_example4 : ll_writeback_pages :=
  ⟨1, 1, 1, [⟨3, 0, 4096, OBD_BRW_CREATE⟩, default, default, default]⟩

/-- A locked page with index 1 and one reference, for the examples. -/
def page_example : page := ⟨7, 1, true, 1⟩

/-! ## `linux/lustre_net.h` : `ptlrpc_bulk_active` -/

/-- The record `struct ptlrpc_bulk_desc`: the bit fields `bd_success:1`, `bd_network_rw:1`,
`bd_type:2`, `bd_registered:1`, whether `bd_lock` is held, and the fields of integer type; the
pointers, the wait queue and the handles are left out. -/
structure ptlrpc_bulk_desc where
  bd_success : Nat
  bd_network_rw : Nat
  bd_type : Nat
  bd_registered : Nat
  bd_lock : Bool
  bd_import_generation : Int
  bd_portal : Nat
  bd_iov_count : Int
  bd_max_iov : Int
  bd_nob : Int
  bd_nob_transferred : Int
  bd_last_xid : Nat
deriving DecidableEq, Repr

/-- The kernel's `spin_lock_irqsave` on `bd_lock`; `none` when the lock is held already, in
which case the caller spins. -/
def spin_lock_irqsave (desc : ptlrpc_bulk_desc) : Option ptlrpc_bulk_desc :=
  if desc.bd_lock then none else some { desc with bd_lock := true }

/-- The kernel's `spin_unlock_irqrestore` on `bd_lock`. -/
def spin_unlock_irqrestore (desc : ptlrpc_bulk_desc) : ptlrpc_bulk_desc :=
  { desc with bd_lock := false }

/-- The function `ptlrpc_bulk_active`: the descriptor after the call and the value returned. -/
def ptlrpc_bulk_active (desc : ptlrpc_bulk_desc) : Option (ptlrpc_bulk_desc × Int) :=
  match spin_lock_irqsave desc with
  | none => none
  | some desc =>
    let rc : Int := desc.bd_network_rw
    some (spin_unlock_irqrestore desc, rc)

/-- A descriptor of a registered bulk that the network can reach, for the examples. -/
def bulk_desc_example : ptlrpc_bulk_desc :=
  ⟨0, 1, 2, 1, false, 3, 8, 4, 16, 16384, 0, 77⟩

/-! ## `lnet/klnds/ralnd/ralnd_modparams.c` : the tunables -/

/-- The `static int` variables of `ralnd_modparams.c`. -/
inductive ralnd_param where
  | n_connd
  | min_reconnect_interval
  | max_reconnect_interval
  | ntx
  | credits
  | peer_credits
  | fma_cq_size
  | timeout
  | max_immediate
deriving DecidableEq, Repr

/-- The value each variable is given where it is defined. -/
def ralnd_param.value : ralnd_param → Int
  | .n_connd => 4
  | .min_reconnect_interval => 1
  | .max_reconnect_interval => 60
  | .ntx => 256
  | .credits => 128
  | .peer_credits => 32
  | .fma_cq_size => 8192
  | .timeout => 30
  | .max_immediate => ((2 <<< 10 : Nat) : Int)

/-- The type `kra_tunables_t` (declared in `ralnd.h`): every field is a pointer to an `int`,
here the variable it points to. -/
structure kra_tunables_t where
  kra_n_connd : ralnd_param
  kra_min_reconnect_interval : ralnd_param
  kra_max_reconnect_interval : ralnd_param
  kra_ntx : ralnd_param
  kra_credits : ralnd_param
  kra_peercredits : ralnd_param
  kra_fma_cq_size : ralnd_param
  kra_timeout : ralnd_param
  kra_max_immediate : ralnd_param
deriving DecidableEq, Repr

/-- The variable `kra_tunables_t kranal_tunables`. -/
def kranal_tunables : kra_tunables_t where
  kra_n_connd := .n_connd
  kra_min_reconnect_interval := .min_reconnect_interval
  kra_max_reconnect_interval := .max_reconnect_interval
  kra_ntx := .ntx
  kra_credits := .credits
  kra_peercredits := .peer_credits
  kra_fma_cq_size := .fma_cq_size
  kra_timeout := .timeout
  kra_max_immediate := .max_immediate

/-! ## The wire codec

The header `linux/lustre_net.h` has the declarations of `lustre_pack_request`,
`lustre_msg_size` and `lustre_unpack_msg` only; their bodies (`ptlrpc/pack_generic.c`) are not
part of the sources at hand.  The definitions of this section follow the contract of the
specification instead.  A buffer is a list of bytes. -/

/-- Modelled from the spec: the failures of the codec that the contract names. -/
inductive codec_error where
  | MalformedMessage
  | MessageTooLarge
deriving DecidableEq, Repr

/-- Modelled from the spec: what the two ends have agreed on, namely the alignment boundary of
the segment bodies, the maximum size of a message and the version that is supported. -/
structure codec_params where
  align : Nat
  max_size : Nat
  version : Nat
deriving DecidableEq, Repr

/-- Modelled from the spec: the fixed header "{version, opcode, flag-bitmask}". -/
structure msg_header where
  version : Nat
  opcode : Nat
  flags : Nat
deriving DecidableEq, Repr

/-- Modelled from the spec: a length "rounded up to an alignment boundary". -/
def size_round (align len : Nat) : Nat := (len + (align - 1)) / align * align

/-- Modelled from the spec: a header field of 32 bits in the "fixed canonical byte order",
least significant byte first. -/
def put32 (x : Nat) : List Nat :=
  [x % 256, x / 256 % 256, x / 65536 % 256, x / 16777216 % 256]

/-- Modelled from the spec: reading a header field of 32 bits off the front of a buffer. -/
def get32 : List Nat → Option (Nat × List Nat)
  | a :: b :: c :: d :: rest => some (a + 256 * b + 65536 * c + 16777216 * d, rest)
  | _ => none

/-- Modelled from the spec: the "segment-length table". -/
def put_lens : List Nat → List Nat
  | [] => []
  | len :: lens => put32 len ++ put_lens lens

/-- Modelled from the spec: reading a table of `count` segment lengths. -/
def get_lens : Nat → List Nat → Option (List Nat × List Nat)
  | 0, buf => some ([], buf)
  | count + 1, buf =>
    match get32 buf with
    | none => none
    | some (len, rest) =>
      match get_lens count rest with
      | none => none
      | some (lens, rest) => some (len :: lens, rest)

/-- Modelled from the spec: the "segment bodies", each filled up with zero bytes to the
alignment boundary. -/
def put_bodies (align : Nat) : List (List Nat) → List Nat
  | [] => []
  | seg :: segs =>
    seg ++ List.replicate (size_round align seg.length - seg.length) 0 ++ put_bodies align segs

/-- Modelled from the spec: cutting the segment bodies out of the rest of the buffer, which
they have to use up ("a segment's length is inconsistent with the total" otherwise). -/
def get_bodies (align : Nat) : List Nat → List Nat → Option (List (List Nat))
  | [], buf => if buf.length = 0 then some [] else none
  | len :: lens, buf =>
    if buf.length < size_round align len then none
    else
      match get_bodies align lens (buf.drop (size_round align len)) with
      | none => none
      | some segs => some (buf.take len :: segs)

/-- Modelled from the spec: the function `lustre_msg_size`, the "total length as the sum of
each segment's length rounded up to an alignment boundary" behind the header, the segment
count and the table of lengths. -/
def lustre_msg_size (p : codec_params) (lengths : List Nat) : Nat :=
  16 + 4 * lengths.length + (lengths.map (size_round p.align)).sum

/-- Modelled from the spec: the function `lustre_pack_request`, `pack(segments[]) -> buffer`.
It "writes a fixed header (version/opcode/flags) followed by segment lengths and then segment
bodies"; "oversized input fails with `MessageTooLarge`", and a failure yields no buffer. -/
def lustre_pack_request (p : codec_params) (hdr : msg_header) (bufs : List (List Nat)) :
    Except codec_error (List Nat) :=
  if lustre_msg_size p (bufs.map List.length) > p.max_size then .error .MessageTooLarge
  else
    .ok (put32 hdr.version ++ (put32 hdr.opcode ++ (put32 hdr.flags ++
      (put32 bufs.length ++ (put_lens (bufs.map List.length) ++ put_bodies p.align bufs)))))

/-- Modelled from the spec: the function `lustre_unpack_msg`,
`unpack(buffer, expected_len) -> segments[]`.  It "fails with `MalformedMessage` if the buffer
is shorter than the header, a segment's length is inconsistent with the total, or version is
unsupported". -/
def lustre_unpack_msg (p : codec_params) (m : List Nat) (len : Nat) :
    Except codec_error (msg_header × List (List Nat)) :=
  if m.length ≠ len then .error .MalformedMessage
  else
    match get32 m with
    | none => .error .MalformedMessage
    | some (version, m) =>
      if version ≠ p.version then .error .MalformedMessage
      else
        match get32 m with
        | none => .error .MalformedMessage
        | some (opcode, m) =>
          match get32 m with
          | none => .error .MalformedMessage
          | some (flags, m) =>
            match get32 m with
            | none => .error .MalformedMessage
            | some (count, m) =>
              match get_lens count m with
              | none => .error .MalformedMessage
              | some (lens, m) =>
                match get_bodies p.align lens m with
                | none => .error .MalformedMessage
                | some segs => .ok (⟨version, opcode, flags⟩, segs)

/-- Modelled from the spec: a segment list is valid for a header when the header fields, the
number of segments and the length of each segment fit their 32 bit fields, the alignment is
positive and the version is the supported one. -/
def codec_valid (p : codec_params) (hdr : msg_header) (bufs : List (List Nat)) : Prop :=
  0 < p.align ∧ hdr.version = p.version ∧ hdr.version < 2 ^ 32 ∧ hdr.opcode < 2 ^ 32 ∧
    hdr.flags < 2 ^ 32 ∧ bufs.length < 2 ^ 32 ∧ ∀ seg ∈ bufs, seg.length < 2 ^ 32

/-! ### Helper lemmas on lists -/

theorem getD_append_cons (A : List brw_page) (x : brw_page) (B : List brw_page) (d : brw_page) :
    (A ++ x :: B).getD A.length d = x := by
  induction A with
  | nil => rfl
  | cons a A ih => simpa using ih

theorem set_append_cons (A : List brw_page) (x y : brw_page) (B : List brw_page) :
    (A ++ x :: B).set A.length y = A ++ y :: B := by
  induction A with
  | nil => rfl
  | cons a A ih => simp [ih]

/-! ### The innermost loop -/

/-- With a positive stride and fuel above `j` the innermost loop finishes, keeps the length of
the array and does not increase `j`. -/
theorem sort_while_some (stride : Nat) (hs : 0 < stride) (tmp : brw_page) :
    ∀ (fuel : Nat) (array : List brw_page) (j : Nat), j < fuel →
      ∃ out k, sort_while fuel stride tmp array j = some (out, k) ∧
        out.length = array.length ∧ k ≤ j := by
  intro fuel
  induction fuel with
  | zero => intro array j h; omega
  | succ fuel ih =>
    intro array j h
    unfold sort_while
    split
    · rename_i hc
      obtain ⟨out, k, h1, h2, h3⟩ :=
        ih (array.set j (array.getD (j - stride) default)) (j - stride) (by omega)
      exact ⟨out, k, h1, by simpa using h2, by omega⟩
    · exact ⟨array, j, rfl, rfl, le_refl _⟩

/-- With stride 1 the innermost loop, started just behind a block `A`, shifts the longest tail
`A2` of `A` whose offsets exceed `tmp.off` one slot to the right and stops at the hole. -/
theorem sort_while_one (tmp : brw_page) :
    ∀ (A : List brw_page) (x : brw_page) (S : List brw_page) (fuel : Nat), A.length < fuel →
      ∃ A1 A2 y, A = A1 ++ A2 ∧ (∀ a ∈ A2, tmp.off < a.off) ∧
        (A1 = [] ∨ ∃ A0 a, A1 = A0 ++ [a] ∧ a.off ≤ tmp.off) ∧
        sort_while fuel 1 tmp (A ++ x :: S) A.length = some (A1 ++ y :: (A2 ++ S), A1.length) := by
  intro A
  induction A using List.reverseRecOn with
  | nil =>
    intro x S fuel h
    obtain ⟨f, rfl⟩ : ∃ f, fuel = f + 1 := ⟨fuel - 1, by omega⟩
    exact ⟨[], [], x, rfl, by simp, Or.inl rfl, by simp [sort_while]⟩
  | append_singleton A a ih =>
    intro x S fuel h
    obtain ⟨f, rfl⟩ : ∃ f, fuel = f + 1 := ⟨fuel - 1, by omega⟩
    have hlen : (A ++ [a]).length = A.length + 1 := by simp
    have hget : ((A ++ [a]) ++ x :: S).getD A.length default = a := by
      rw [List.append_assoc]; exact getD_append_cons A a _ _
    by_cases hc : tmp.off < a.off
    · obtain ⟨A1, A2, y, h1, h2, h3, h4⟩ := ih a (a :: S) f (by simp at h; omega)
      refine ⟨A1, A2 ++ [a], y, by rw [h1]; simp, ?_, h3, ?_⟩
      · intro b hb
        rcases List.mem_append.mp hb with hb | hb
        · exact h2 b hb
        · simp at hb; subst hb; exact hc
      · have hset : ((A ++ [a]) ++ x :: S).set (A.length + 1) a = A ++ a :: a :: S := by
          have := set_append_cons (A ++ [a]) x a S
          rw [hlen] at this; rw [this]; simp
        unfold sort_while
        rw [hlen]
        simp only [Nat.add_sub_cancel, hget, hset]
        rw [if_pos ⟨by omega, hc⟩, h4]
        simp
    · refine ⟨A ++ [a], [], x, by simp, by simp, Or.inr ⟨A, a, rfl, by omega⟩, ?_⟩
      unfold sort_while
      rw [hlen]
      simp only [Nat.add_sub_cancel, hget]
      rw [if_neg (by intro h; exact hc h.2)]
      simp

/-! ### One pass over the array -/

/-- With a positive stride a pass finishes and keeps the length of the array. -/
theorem sort_for_some (stride : Nat) (hs : 0 < stride) (num : Int) :
    ∀ (fuel : Nat) (array : List brw_page) (i : Nat), 0 < fuel → num.toNat < fuel + i →
      ∃ out, sort_for fuel stride num array i = some out ∧ out.length = array.length := by
  intro fuel
  induction fuel with
  | zero =>
    intro array i h0 h
    exfalso; omega
  | succ fuel ih =>
    intro array i h0 h
    unfold sort_for
    by_cases hlt : (i : Int) < num
    · rw [if_pos hlt]
      obtain ⟨a1, k, h1, h2, _⟩ :=
        sort_while_some stride hs (array.getD i default) (i + 1) array i (by omega)
      simp only [h1]
      obtain ⟨out, h3, h4⟩ :=
        ih (a1.set k (array.getD i default)) (i + 1) (by omega) (by omega)
      exact ⟨out, h3, by simpa [h2] using h4⟩
    · rw [if_neg hlt]
      exact ⟨array, rfl, rfl⟩

/-- Moving an entry in front of a block of entries with larger offsets does not change the
order among entries of any one offset. -/
theorem filter_off_insert (k : Nat) (tmp : brw_page) (A2 : List brw_page)
    (h : ∀ a ∈ A2, tmp.off < a.off) :
    (tmp :: A2).filter (fun p => decide (p.off = k)) =
      (A2 ++ [tmp]).filter (fun p => decide (p.off = k)) := by
  by_cases hk : tmp.off = k
  · have hA : A2.filter (fun p => decide (p.off = k)) = [] := by
      rw [List.filter_eq_nil_iff]
      intro a ha
      have := h a ha
      simp only [decide_eq_true_eq]
      omega
    simp [List.filter_cons, hk, hA]
  · simp [List.filter_cons, hk]

/-- A pass with stride 1 from position `|L|`, where the block `L` in front is already in
ascending order: the block grows to the first `num` entries, stays in ascending order, keeps
the order among the entries of each offset, and the entries from `num` on are not touched. -/
theorem sort_for_one (num : Int) :
    ∀ (fuel : Nat) (L R : List brw_page), (L.length : Int) ≤ num →
      num ≤ (L.length : Int) + R.length → num.toNat + 1 ≤ fuel + L.length →
      L.Pairwise (fun a b => a.off ≤ b.off) →
      ∃ L1, sort_for fuel 1 num (L ++ R) L.length = some (L1 ++ R.drop (num.toNat - L.length)) ∧
        L1.length = num.toNat ∧ L1.Pairwise (fun a b => a.off ≤ b.off) ∧
        ∀ k, L1.filter (fun p => decide (p.off = k)) =
          (L ++ R.take (num.toNat - L.length)).filter (fun p => decide (p.off = k)) := by
  intro fuel
  induction fuel with
  | zero =>
    intro L R h1 h2 h3 h4
    exfalso; omega
  | succ fuel ih =>
    intro L R h1 h2 h3 h4
    unfold sort_for
    by_cases hlt : (L.length : Int) < num
    · rw [if_pos hlt]
      cases R with
      | nil => simp at h2; omega
      | cons tmp R1 =>
        obtain ⟨A1, A2, y, e1, e2, e3, e4⟩ := sort_while_one tmp L tmp R1 (L.length + 1) (by omega)
        simp only [getD_append_cons, e4, set_append_cons]
        have hsort : (A1 ++ tmp :: A2).Pairwise (fun a b => a.off ≤ b.off) := by
          rw [e1] at h4
          rw [List.pairwise_append] at h4 ⊢
          obtain ⟨p1, p2, p3⟩ := h4
          refine ⟨p1, ?_, ?_⟩
          · rw [List.pairwise_cons]
            exact ⟨fun a ha => Nat.le_of_lt (e2 a ha), p2⟩
          · intro a ha b hb
            have hat : a.off ≤ tmp.off := by
              rcases e3 with e3 | ⟨A0, a0, e3, e5⟩
              · rw [e3] at ha; simp at ha
              · rw [e3] at ha p1
                rcases List.mem_append.mp ha with ha | ha
                · rw [List.pairwise_append] at p1
                  exact le_trans (p1.2.2 a ha a0 (by simp)) e5
                · simp at ha; subst ha; exact e5
            rcases List.mem_cons.mp hb with hb | hb
            · subst hb; exact hat
            · exact p3 a ha b hb
        have hlen : (A1 ++ tmp :: A2).length = L.length + 1 := by
          rw [e1]; simp; omega
        obtain ⟨L1, g1, g2, g3, g4⟩ := ih (A1 ++ tmp :: A2) R1 (by rw [hlen]; push_cast; omega)
          (by rw [hlen]; simp at h2; push_cast; omega) (by rw [hlen]; omega) hsort
        rw [hlen] at g1 g4
        have hn : num.toNat - L.length = (num.toNat - (L.length + 1)) + 1 := by omega
        refine ⟨L1, ?_, g2, g3, ?_⟩
        · rw [hn, List.drop_succ_cons, ← g1]
          simp
        · intro k
          rw [g4 k, hn, List.take_succ_cons, e1]
          simp only [List.filter_append]
          have := filter_off_insert k tmp A2 e2
          simp only [List.filter_append] at this
          rw [this]
          simp only [List.filter_cons, List.filter_nil]
          split <;> simp
    · rw [if_neg hlt]
      have hn : num.toNat - L.length = 0 := by omega
      refine ⟨L, by simp [hn], by omega, h4, by simp [hn]⟩

/-! ### The strides -/

theorem strideSeq_lt_succ (k : Nat) : strideSeq k < strideSeq (k + 1) := by
  simp only [strideSeq]; omega

theorem strideSeq_strictMono : StrictMono strideSeq :=
  strictMono_nat_of_lt_succ strideSeq_lt_succ

theorem strideSeq_pos (k : Nat) : 0 < strideSeq k := by
  cases k <;> simp [strideSeq]

theorem strideSeq_ge (k : Nat) : k + 1 ≤ strideSeq k := by
  induction k with
  | zero => simp [strideSeq]
  | succ k ih => simp only [strideSeq]; omega

theorem strideSeq_div (k : Nat) : strideSeq (k + 1) / 3 = strideSeq k := by
  simp only [strideSeq]; omega

theorem strideSeq_19 : (strideSeq 19 : Int) = SORT_NUM_MAX := by
  simp [strideSeq, SORT_NUM_MAX]

/-- The search for the first stride, started at a member of the sequence of increments, stops
at the first member that is not below `num`, when `num` is at most `SORT_NUM_MAX`. -/
theorem sort_stride_some (num : Int) (hof : num ≤ SORT_NUM_MAX) :
    ∀ (fuel k : Nat), 0 < fuel → num.toNat < fuel + strideSeq k →
      ∃ m, sort_stride fuel num (strideSeq k) = some (strideSeq m) ∧ k ≤ m ∧
        num ≤ (strideSeq m : Int) ∧ ∀ j, k ≤ j → j < m → (strideSeq j : Int) < num := by
  intro fuel
  induction fuel with
  | zero => intro k h0; omega
  | succ fuel ih =>
    intro k h0 h
    unfold sort_stride
    by_cases hlt : (strideSeq k : Int) < num
    · rw [if_pos hlt]
      have hk : k < 19 := by
        have : strideSeq k < strideSeq 19 := by
          have := strideSeq_19; omega
        exact strideSeq_strictMono.lt_iff_lt.mp this
      have hle : strideSeq (k + 1) ≤ strideSeq 19 := strideSeq_strictMono.monotone hk
      have hno : ¬ (((strideSeq k * 3 + 1 : Nat) : Int) > INT_MAX) := by
        have := strideSeq_19
        simp only [strideSeq] at hle
        simp only [INT_MAX, SORT_NUM_MAX] at *
        omega
      rw [if_neg hno]
      have hs := strideSeq_lt_succ k
      obtain ⟨m, e1, e2, e3, e4⟩ := ih (k + 1) (by omega) (by omega)
      refine ⟨m, e1, by omega, e3, ?_⟩
      intro j hj1 hj2
      rcases Nat.eq_or_lt_of_le hj1 with rfl | hj1
      · exact hlt
      · exact e4 j hj1 hj2
    · rw [if_neg hlt]
      exact ⟨k, rfl, le_refl _, by omega, fun j h1 h2 => by omega⟩

/-! ### The passes with decreasing stride -/

/-- A list with at most one entry is in ascending order. -/
theorem pairwise_of_length_le_one (l : List brw_page) (h : l.length ≤ 1) :
    l.Pairwise (fun a b => a.off ≤ b.off) := by
  match l, h with
  | [], _ => exact List.Pairwise.nil
  | [a], _ => exact List.pairwise_singleton _ a

/-- The pass with stride 1 over an array with at least `num ≥ 1` entries: it finishes, the
first `num` entries come out in ascending order of `off` with the order among the entries of
each offset kept, and the entries from `num` on are not touched. -/
theorem sort_pass_one (num : Int) (array : List brw_page) (h1 : 1 ≤ num)
    (hlen : num ≤ array.length) :
    ∃ out, sort_for (num.toNat + 1) 1 num array 1 = some out ∧ out.length = array.length ∧
      (out.take num.toNat).Pairwise (fun a b => a.off ≤ b.off) ∧
      (∀ k, (out.take num.toNat).filter (fun p => decide (p.off = k)) =
        (array.take num.toNat).filter (fun p => decide (p.off = k))) ∧
      out.drop num.toNat = array.drop num.toNat := by
  have hl : (array.take 1).length = 1 := by
    rw [List.length_take]; omega
  obtain ⟨L1, g1, g2, g3, g4⟩ := sort_for_one num (num.toNat + 1) (array.take 1) (array.drop 1)
    (by rw [hl]; exact_mod_cast h1) (by rw [hl, List.length_drop]; push_cast; omega)
    (by omega) (pairwise_of_length_le_one _ (by omega))
  rw [List.take_append_drop, hl] at g1
  rw [hl] at g4
  refine ⟨_, g1, ?_, ?_, ?_, ?_⟩
  · simp only [List.length_append, List.length_drop, g2]; omega
  · rw [List.take_left' g2]; exact g3
  · intro k
    rw [List.take_left' g2, g4 k, List.take_drop]
    have : array.take (1 + (num.toNat - 1)) = array.take 1 ++ (array.drop 1).take (num.toNat - 1) := by
      rw [List.take_add]
    rw [List.take_drop] at this
    rw [← this]
    congr 2; omega
  · rw [List.drop_left' g2, List.drop_drop]
    congr 1; omega

/-- Started at a member of the sequence of increments other than 1, the passes finish, and
the last one, with stride 1, leaves the first `num` entries in ascending order. -/
theorem sort_do_sorted (num : Int) (h1 : 1 ≤ num) :
    ∀ (m fuel : Nat) (array : List brw_page), m < fuel → num ≤ array.length →
      ∃ out, sort_do fuel num array (strideSeq (m + 1)) = some out ∧
        out.length = array.length ∧
        (out.take num.toNat).Pairwise (fun a b => a.off ≤ b.off) := by
  intro m
  induction m with
  | zero =>
    intro fuel array hf hlen
    obtain ⟨f, rfl⟩ : ∃ f, fuel = f + 1 := ⟨fuel - 1, by omega⟩
    obtain ⟨out, e1, e2, e3, _⟩ := sort_pass_one num array h1 hlen
    refine ⟨out, ?_, e2, e3⟩
    unfold sort_do
    rw [strideSeq_div]
    simp [strideSeq, e1]
  | succ m ih =>
    intro fuel array hf hlen
    obtain ⟨f, rfl⟩ : ∃ f, fuel = f + 1 := ⟨fuel - 1, by omega⟩
    obtain ⟨a1, e1, e2⟩ := sort_for_some (strideSeq (m + 1)) (strideSeq_pos _) num
      (num.toNat + 1) array (strideSeq (m + 1)) (by omega) (by omega)
    obtain ⟨out, g1, g2, g3⟩ := ih f a1 (by omega) (by rw [e2]; exact hlen)
    refine ⟨out, ?_, by rw [g2, e2], g3⟩
    unfold sort_do
    rw [strideSeq_div]
    simp only [e1]
    rw [if_pos (by have := strideSeq_ge (m + 1); omega), g1]

/-! ### The whole function -/

/-- For `num ≤ 0` no pass touches the array. -/
theorem sort_brw_pages_nonpos (array : List brw_page) (num : Int) (h : num ≤ 0) :
    sort_brw_pages array num = some array := by
  have hn : num.toNat = 0 := by omega
  have h1 : ¬ num = 1 := by omega
  have h2 : ¬ ((1 : Nat) : Int) < num := by omega
  have h3 : ¬ (((1 / 3 : Nat) : Nat) : Int) < num := by
    simp only [Nat.reduceDiv]; omega
  have e1 : sort_stride (0 + 1) num 1 = some 1 := by
    simp only [sort_stride, if_neg h2]
  have e2 : sort_for (0 + 1) (1 / 3) num array (1 / 3) = some array := by
    simp only [sort_for, if_neg h3]
  have e3 : sort_do (1 + 1) num array 1 = some array := by
    simp only [sort_do, hn, e2]
    simp
  simp only [sort_brw_pages, if_neg h1, hn, e1, e3]

/-- For `2 ≤ num ≤ SORT_NUM_MAX` the passes start from the first increment that is not below
`num`. -/
theorem sort_brw_pages_eq (array : List brw_page) (num : Int) (h2 : 2 ≤ num)
    (hof : num ≤ SORT_NUM_MAX) :
    ∃ m, sort_brw_pages array num = sort_do (strideSeq (m + 1) + 1) num array (strideSeq (m + 1)) ∧
      (strideSeq m : Int) < num ∧ num ≤ (strideSeq (m + 1) : Int) := by
  obtain ⟨m, e1, _, e3, e4⟩ := sort_stride_some num hof (num.toNat + 1) 0 (by omega)
    (by simp only [strideSeq]; omega)
  cases m with
  | zero => simp [strideSeq] at e3; omega
  | succ m =>
    refine ⟨m, ?_, e4 m (by omega) (by omega), e3⟩
    have h1 : ¬ num = 1 := by omega
    simp only [strideSeq] at e1
    simp only [sort_brw_pages, if_neg h1, e1]
    rfl

/-- C1: for every array and every `num` that is at most the length of the array and at most
`SORT_NUM_MAX` (so that the stride computation stays within `int`), `sort_brw_pages` returns,
and afterwards the entries `array[0..num)` are in ascending (non-decreasing) order of `off`. -/
theorem sort_brw_pages_sorted (array : List brw_page) (num : Int)
    (hlen : num ≤ array.length) (hof : num ≤ SORT_NUM_MAX) :
    ∃ out, sort_brw_pages array num = some out ∧ out.length = array.length ∧
      (out.take num.toNat).Pairwise (fun a b => a.off ≤ b.off) := by
  rcases le_or_lt num 1 with h | h
  · refine ⟨array, ?_, rfl, pairwise_of_length_le_one _ (by rw [List.length_take]; omega)⟩
    rcases eq_or_lt_of_le h with h | h
    · simp [sort_brw_pages, h]
    · exact sort_brw_pages_nonpos array num (by omega)
  · obtain ⟨m, e1, _, _⟩ := sort_brw_pages_eq array num (by omega) hof
    rw [e1]
    exact sort_do_sorted num (by omega) m _ array (by have := strideSeq_ge (m + 1); omega) hlen

/-- C1 at a concrete batch: five pages with offsets 5, 5, 6, 7, 0. -/
theorem sort_brw_pages_sorted_witness :
    ((5 : Int) ≤ (pagesOfOffsets [5, 5, 6, 7, 0]).length ∧ (5 : Int) ≤ SORT_NUM_MAX) ∧
    ∃ out, sort_brw_pages (pagesOfOffsets [5, 5, 6, 7, 0]) 5 = some out ∧
      out.length = (pagesOfOffsets [5, 5, 6, 7, 0]).length ∧
      (out.take (5 : Int).toNat).Pairwise (fun a b => a.off ≤ b.off) :=
  ⟨⟨by decide, by decide⟩,
    sort_brw_pages_sorted (pagesOfOffsets [5, 5, 6, 7, 0]) 5 (by decide) (by decide)⟩

/-- C2 fails as stated: on five pages with offsets 5, 5, 6, 7, 0 the pass with stride 4 moves
the first page of offset 5 behind the second one, and the pass with stride 1 keeps them so:
the pages of offset 5 come out as page 1, page 0, while they went in as page 0, page 1. -/
theorem sort_brw_pages_not_stable :
    sort_brw_pages (pagesOfOffsets [5, 5, 6, 7, 0]) 5 =
      some [⟨4, 0, 4096, 0⟩, ⟨1, 5, 4096, 0⟩, ⟨0, 5, 4096, 0⟩, ⟨2, 6, 4096, 0⟩, ⟨3, 7, 4096, 0⟩] ∧
    ¬ sameOrderPerOffset ((pagesOfOffsets [5, 5, 6, 7, 0]).take 5)
      (List.take 5
        [⟨4, 0, 4096, 0⟩, ⟨1, 5, 4096, 0⟩, ⟨0, 5, 4096, 0⟩, ⟨2, 6, 4096, 0⟩, ⟨3, 7, 4096, 0⟩]) := by
  refine ⟨by decide, fun h => ?_⟩
  have h5 := h 5
  revert h5
  decide

/-- C2 as amended: for `num ≤ 4` (and at most the length of the array) the only pass is the
insertion sort with stride 1, and `sort_brw_pages` keeps every two entries of equal `off` among
`array[0..num)` in the relative order they had in the input. -/
theorem sort_brw_pages_stable_small (array : List brw_page) (num : Int)
    (hlen : num ≤ array.length) (h4 : num ≤ 4) :
    ∃ out, sort_brw_pages array num = some out ∧
      sameOrderPerOffset (array.take num.toNat) (out.take num.toNat) := by
  rcases le_or_lt num 1 with h | h
  · refine ⟨array, ?_, fun k => rfl⟩
    rcases eq_or_lt_of_le h with h | h
    · simp [sort_brw_pages, h]
    · exact sort_brw_pages_nonpos array num (by omega)
  · obtain ⟨m, e1, e2, _⟩ := sort_brw_pages_eq array num (by omega)
      (by simp only [SORT_NUM_MAX]; omega)
    have hm : m = 0 := by
      rcases Nat.eq_zero_or_pos m with h0 | h0
      · exact h0
      · have := strideSeq_strictMono.monotone (show 1 ≤ m from h0)
        simp only [strideSeq] at this
        omega
    subst hm
    obtain ⟨out, g1, _, _, g4, _⟩ := sort_pass_one num array (by omega) hlen
    refine ⟨out, ?_, g4⟩
    rw [e1]
    simp [strideSeq, sort_do, g1]

/-- C2 as amended at a concrete batch: four pages with offsets 5, 5, 0, 5. -/
theorem sort_brw_pages_stable_small_witness :
    ((4 : Int) ≤ (pagesOfOffsets [5, 5, 0, 5]).length ∧ (4 : Int) ≤ 4) ∧
    ∃ out, sort_brw_pages (pagesOfOffsets [5, 5, 0, 5]) 4 = some out ∧
      sameOrderPerOffset ((pagesOfOffsets [5, 5, 0, 5]).take (4 : Int).toNat)
        (out.take (4 : Int).toNat) :=
  ⟨⟨by decide, by decide⟩,
    sort_brw_pages_stable_small (pagesOfOffsets [5, 5, 0, 5]) 4 (by decide) (by decide)⟩

/-! ## The constants of `lustre_net.h` and `ralnd_modparams.c` -/

/-- C12: the numeric values of `enum rq_phase` increase in the order of the life cycle
`NEW`, `RPC`, `BULK`, `INTERPRET`, `COMPLETE`, each being exactly one more than the one
before it. -/
theorem rq_phase_val_succ :
    (rq_phase.RQ_PHASE_NEW.val < rq_phase.RQ_PHASE_RPC.val ∧
      rq_phase.RQ_PHASE_RPC.val < rq_phase.RQ_PHASE_BULK.val ∧
      rq_phase.RQ_PHASE_BULK.val < rq_phase.RQ_PHASE_INTERPRET.val ∧
      rq_phase.RQ_PHASE_INTERPRET.val < rq_phase.RQ_PHASE_COMPLETE.val) ∧
    rq_phase.RQ_PHASE_NEW.val = 0xebc0de00 ∧
    rq_phase.RQ_PHASE_RPC.val = rq_phase.RQ_PHASE_NEW.val + 1 ∧
    rq_phase.RQ_PHASE_BULK.val = rq_phase.RQ_PHASE_RPC.val + 1 ∧
    rq_phase.RQ_PHASE_INTERPRET.val = rq_phase.RQ_PHASE_BULK.val + 1 ∧
    rq_phase.RQ_PHASE_COMPLETE.val = rq_phase.RQ_PHASE_INTERPRET.val + 1 := by
  simp [rq_phase.val]

/-- C13: for each of the services LDLM, MGS, MDS, OST and PTLBD the maximum request size is at
most the size of a request buffer, so that a buffer of which nothing is used is not full under
the rule of the header and has room for a request of maximum size. -/
theorem maxreqsize_le_bufsize :
    (LDLM_MAXREQSIZE ≤ LDLM_BUFSIZE ∧ MGS_MAXREQSIZE ≤ MGS_BUFSIZE ∧
      MDS_MAXREQSIZE ≤ MDS_BUFSIZE ∧ OST_MAXREQSIZE ≤ OST_BUFSIZE ∧
      PTLBD_MAXREQSIZE ≤ PTLBD_BUFSIZE) ∧
    (request_buffer_full LDLM_BUFSIZE LDLM_MAXREQSIZE 0 = false ∧
      request_buffer_full MGS_BUFSIZE MGS_MAXREQSIZE 0 = false ∧
      request_buffer_full MDS_BUFSIZE MDS_MAXREQSIZE 0 = false ∧
      request_buffer_full OST_BUFSIZE OST_MAXREQSIZE 0 = false ∧
      request_buffer_full PTLBD_BUFSIZE PTLBD_MAXREQSIZE 0 = false) := by
  decide

/-- C14: the default `min_reconnect_interval` is 1, positive and at most the default
`max_reconnect_interval`, which is 60; `kranal_tunables` points to these two variables in its
fields `kra_min_reconnect_interval` and `kra_max_reconnect_interval`, and in no other field. -/
theorem reconnect_interval_defaults :
    (ralnd_param.min_reconnect_interval.value = 1 ∧
      ralnd_param.max_reconnect_interval.value = 60 ∧
      0 < ralnd_param.min_reconnect_interval.value ∧
      ralnd_param.min_reconnect_interval.value ≤ ralnd_param.max_reconnect_interval.value) ∧
    (kranal_tunables.kra_min_reconnect_interval = ralnd_param.min_reconnect_interval ∧
      kranal_tunables.kra_max_reconnect_interval = ralnd_param.max_reconnect_interval) ∧
    (∀ v ∈ [kranal_tunables.kra_n_connd, kranal_tunables.kra_ntx, kranal_tunables.kra_credits,
        kranal_tunables.kra_peercredits, kranal_tunables.kra_fma_cq_size,
        kranal_tunables.kra_timeout, kranal_tunables.kra_max_immediate],
      v ≠ ralnd_param.min_reconnect_interval ∧ v ≠ ralnd_param.max_reconnect_interval) := by
  decide

/-- C20: for every `num_physpages` each of `MGT_NUM_THREADS`, `MDT_NUM_THREADS` and
`OST_NUM_THREADS` is `num_physpages / 8192` limited to the range from 2 to the maximum of the
service (8, 32 and 36), hence at least 2 and at most that maximum. -/
theorem num_threads_clamped (num_physpages : Nat) :
    (MGT_NUM_THREADS num_physpages = clampTo 2 8 (num_physpages / 8192) ∧
      2 ≤ MGT_NUM_THREADS num_physpages ∧ MGT_NUM_THREADS num_physpages ≤ MGT_MAX_THREADS) ∧
    (MDT_NUM_THREADS num_physpages = clampTo 2 32 (num_physpages / 8192) ∧
      2 ≤ MDT_NUM_THREADS num_physpages ∧ MDT_NUM_THREADS num_physpages ≤ MDT_MAX_THREADS) ∧
    (OST_NUM_THREADS num_physpages = clampTo 2 36 (num_physpages / 8192) ∧
      2 ≤ OST_NUM_THREADS num_physpages ∧ OST_NUM_THREADS num_physpages ≤ OST_MAX_THREADS) := by
  simp only [MGT_NUM_THREADS, MDT_NUM_THREADS, OST_NUM_THREADS, MGT_MAX_THREADS,
    MDT_MAX_THREADS, OST_MAX_THREADS, clampTo]
  refine ⟨⟨?_, ?_, ?_⟩, ⟨?_, ?_, ?_⟩, ⟨?_, ?_, ?_⟩⟩ <;> first | omega | (split_ifs <;> omega)

/-! ## The maxima for bulk I/O -/

/-- The values after the step "reduce to fit" are at most the first definitions and at most the
limits of the transport. -/
theorem brw_reduce_le (PTL_MTU PTL_MD_MAX_IOV : Option Nat) :
    (brw_reduce PTL_MTU PTL_MD_MAX_IOV brw_define).PTLRPC_MAX_BRW_SIZE ≤ 2 ^ 20 ∧
    (∀ mtu, PTL_MTU = some mtu →
      (brw_reduce PTL_MTU PTL_MD_MAX_IOV brw_define).PTLRPC_MAX_BRW_SIZE ≤ mtu) ∧
    (brw_reduce PTL_MTU PTL_MD_MAX_IOV brw_define).PTLRPC_MAX_BRW_PAGES ≤ 512 ∧
    (∀ iov, PTL_MD_MAX_IOV = some iov →
      (brw_reduce PTL_MTU PTL_MD_MAX_IOV brw_define).PTLRPC_MAX_BRW_PAGES ≤ iov) := by
  have e : (1 <<< 20 : Nat) = 2 ^ 20 := by decide
  cases PTL_MTU <;> cases PTL_MD_MAX_IOV <;> simp only [brw_reduce, brw_define, e] <;>
    refine ⟨?_, ?_, ?_, ?_⟩ <;> intros <;> (try split_ifs) <;> simp_all <;> omega

/-- With at most 512 pages of less than `2 ^ 54` bytes the product does not wrap. -/
theorem cpp_mul_eq (pages PAGE_SIZE : Nat) (hp : pages ≤ 512) (hps : PAGE_SIZE < 2 ^ 54) :
    cpp_mul pages PAGE_SIZE = pages * PAGE_SIZE := by
  have h : pages * PAGE_SIZE ≤ 512 * PAGE_SIZE := Nat.mul_le_mul_right PAGE_SIZE hp
  exact Nat.mod_eq_of_lt (by omega)

/-- What an accepted header has computed: the reduced values made consistent, with a page count
that passed the test of the `#error`. -/
theorem brw_kernel_ok (PAGE_SIZE : Nat) (PTL_MTU PTL_MD_MAX_IOV : Option Nat) (b : brw_max)
    (h : brw_kernel PAGE_SIZE PTL_MTU PTL_MD_MAX_IOV = .ok b) :
    brw_consistent PAGE_SIZE (brw_reduce PTL_MTU PTL_MD_MAX_IOV brw_define) = .ok b ∧
      b.PTLRPC_MAX_BRW_PAGES &&& (b.PTLRPC_MAX_BRW_PAGES - 1) = 0 := by
  unfold brw_kernel at h
  split at h
  · exact absurd h (by simp)
  · rename_i b1 hb1
    unfold brw_power_of_two at h
    split at h
    · exact absurd h (by simp)
    · rename_i hz
      have : b1 = b := by simpa using h
      subst this
      exact ⟨hb1, by simpa using hz⟩

/-- C9 fails for a transport limit below one page: with `PAGE_SIZE` 4096, `PTL_MTU` 1024 and
no `PTL_MD_MAX_IOV` the header is accepted, the test before the `#error` lets the page count 0
pass, and 0 is not a power of two. -/
theorem brw_kernel_pages_zero :
    brw_kernel 4096 (some 1024) none = .ok ⟨1024, 0⟩ ∧
    ((0 : Nat) &&& (0 - 1) = 0) ∧ ¬ ∃ k : Nat, (0 : Nat) = 2 ^ k := by
  refine ⟨rfl, by decide, ?_⟩
  rintro ⟨k, hk⟩
  have := Nat.two_pow_pos k
  omega

/-- Where the product wraps the first branch is taken: with a `PAGE_SIZE` of `2 ^ 55` the
product `512 * PAGE_SIZE` is 0 in 64 bits, so `PTLRPC_MAX_BRW_SIZE` becomes 0 and
`PTLRPC_MAX_BRW_PAGES` stays 512. -/
theorem brw_kernel_wraps : brw_kernel (2 ^ 55) none none = .ok ⟨0, 512⟩ := rfl

set_option maxRecDepth 100000 in
/-- A page count of at most 512 that passes the test before the `#error` is 0 or a power of
two. -/
theorem and_pred_eq_zero (p : Nat) (hp : p ≤ 512) (h : p &&& (p - 1) = 0) :
    p = 0 ∨ ∃ k : Nat, p = 2 ^ k := by
  have key : ∀ q : Nat, q ≤ 512 → q &&& (q - 1) = 0 →
      q = 0 ∨ ∃ k : Nat, k ≤ 9 ∧ q = 2 ^ k := by decide
  rcases key p hp h with h0 | ⟨k, _, hk⟩
  · exact Or.inl h0
  · exact Or.inr ⟨k, hk⟩

/-- The page count of an accepted header is at most 512. -/
theorem brw_kernel_pages_le (PAGE_SIZE : Nat) (PTL_MTU PTL_MD_MAX_IOV : Option Nat)
    (b : brw_max) (h : brw_kernel PAGE_SIZE PTL_MTU PTL_MD_MAX_IOV = .ok b) :
    b.PTLRPC_MAX_BRW_PAGES ≤ 512 := by
  obtain ⟨hc, -⟩ := brw_kernel_ok PAGE_SIZE PTL_MTU PTL_MD_MAX_IOV b h
  obtain ⟨-, -, r3, -⟩ := brw_reduce_le PTL_MTU PTL_MD_MAX_IOV
  generalize brw_reduce PTL_MTU PTL_MD_MAX_IOV brw_define = r at hc r3
  unfold brw_consistent at hc
  split at hc
  · have : b = { r with PTLRPC_MAX_BRW_SIZE := cpp_mul r.PTLRPC_MAX_BRW_PAGES PAGE_SIZE } := by
      simpa using hc.symm
    subst this
    exact r3
  · split at hc
    · exact absurd hc (by simp)
    · rename_i h1 h2
      have : b = { r with PTLRPC_MAX_BRW_PAGES := r.PTLRPC_MAX_BRW_SIZE / PAGE_SIZE } := by
        simpa using hc.symm
      subst this
      have hle : r.PTLRPC_MAX_BRW_SIZE / PAGE_SIZE ≤ r.PTLRPC_MAX_BRW_PAGES := by
        have hm : cpp_mul r.PTLRPC_MAX_BRW_PAGES PAGE_SIZE ≤ r.PTLRPC_MAX_BRW_PAGES * PAGE_SIZE :=
          Nat.mod_le _ _
        have : r.PTLRPC_MAX_BRW_SIZE ≤ r.PTLRPC_MAX_BRW_PAGES * PAGE_SIZE := by omega
        exact Nat.div_le_of_le_mul (by rwa [Nat.mul_comm] at this)
      show r.PTLRPC_MAX_BRW_SIZE / PAGE_SIZE ≤ 512
      omega

/-- The page count of an accepted header is 0 or a power of two: the test before the `#error`
rejects every other value. -/
theorem brw_kernel_pages_pow (PAGE_SIZE : Nat) (PTL_MTU PTL_MD_MAX_IOV : Option Nat)
    (b : brw_max) (h : brw_kernel PAGE_SIZE PTL_MTU PTL_MD_MAX_IOV = .ok b) :
    b.PTLRPC_MAX_BRW_PAGES = 0 ∨ ∃ k : Nat, b.PTLRPC_MAX_BRW_PAGES = 2 ^ k :=
  and_pred_eq_zero _ (brw_kernel_pages_le PAGE_SIZE PTL_MTU PTL_MD_MAX_IOV b h)
    (brw_kernel_ok PAGE_SIZE PTL_MTU PTL_MD_MAX_IOV b h).2

/-- C10 fails when `PAGE_SIZE` does not divide the reduced size: with `PAGE_SIZE` 4096,
`PTL_MTU` 5000 and no `PTL_MD_MAX_IOV` the header is accepted with a size of 5000 and a page
count of 1, and 5000 is not `1 * 4096`. -/
theorem brw_kernel_not_consistent :
    brw_kernel 4096 (some 5000) none = .ok ⟨5000, 1⟩ ∧
    (⟨5000, 1⟩ : brw_max).PTLRPC_MAX_BRW_SIZE ≠
      (⟨5000, 1⟩ : brw_max).PTLRPC_MAX_BRW_PAGES * 4096 :=
  ⟨rfl, by decide⟩

/-- Where no product wraps (`PAGE_SIZE < 2 ^ 54`), an accepted kernel build has
`PTLRPC_MAX_BRW_PAGES * PAGE_SIZE` at most `PTLRPC_MAX_BRW_SIZE`, for a positive `PAGE_SIZE`
less than one page short of it, and the two agree exactly when `PAGE_SIZE` divides
`PTLRPC_MAX_BRW_SIZE`. -/
theorem brw_kernel_consistent (PAGE_SIZE : Nat) (PTL_MTU PTL_MD_MAX_IOV : Option Nat)
    (b : brw_max) (hps : PAGE_SIZE < 2 ^ 54)
    (h : brw_kernel PAGE_SIZE PTL_MTU PTL_MD_MAX_IOV = .ok b) :
    b.PTLRPC_MAX_BRW_PAGES * PAGE_SIZE ≤ b.PTLRPC_MAX_BRW_SIZE ∧
    (0 < PAGE_SIZE → b.PTLRPC_MAX_BRW_SIZE < (b.PTLRPC_MAX_BRW_PAGES + 1) * PAGE_SIZE) ∧
    (b.PTLRPC_MAX_BRW_SIZE = b.PTLRPC_MAX_BRW_PAGES * PAGE_SIZE ↔
      PAGE_SIZE ∣ b.PTLRPC_MAX_BRW_SIZE) := by
  obtain ⟨hc, -⟩ := brw_kernel_ok PAGE_SIZE PTL_MTU PTL_MD_MAX_IOV b h
  obtain ⟨-, -, r3, -⟩ := brw_reduce_le PTL_MTU PTL_MD_MAX_IOV
  generalize brw_reduce PTL_MTU PTL_MD_MAX_IOV brw_define = r at hc r3
  rw [brw_consistent, cpp_mul_eq _ _ r3 hps] at hc
  split at hc
  · have : b = { r with PTLRPC_MAX_BRW_SIZE := r.PTLRPC_MAX_BRW_PAGES * PAGE_SIZE } := by
      simpa using hc.symm
    subst this
    refine ⟨le_refl _, ?_, ?_⟩
    · intro hp
      show r.PTLRPC_MAX_BRW_PAGES * PAGE_SIZE < (r.PTLRPC_MAX_BRW_PAGES + 1) * PAGE_SIZE
      rw [Nat.add_mul]; omega
    · exact ⟨fun _ => Dvd.intro_left _ rfl, fun _ => rfl⟩
  · split at hc
    · exact absurd hc (by simp)
    · rename_i h1 h2
      have : b = { r with PTLRPC_MAX_BRW_PAGES := r.PTLRPC_MAX_BRW_SIZE / PAGE_SIZE } := by
        simpa using hc.symm
      subst this
      have hpos : 0 < PAGE_SIZE := Nat.pos_of_ne_zero h2
      refine ⟨Nat.div_mul_le_self _ _, ?_, ?_⟩
      · intro _
        show r.PTLRPC_MAX_BRW_SIZE < (r.PTLRPC_MAX_BRW_SIZE / PAGE_SIZE + 1) * PAGE_SIZE
        have := Nat.lt_mul_div_succ r.PTLRPC_MAX_BRW_SIZE hpos
        rwa [Nat.mul_comm] at this
      · show r.PTLRPC_MAX_BRW_SIZE = r.PTLRPC_MAX_BRW_SIZE / PAGE_SIZE * PAGE_SIZE ↔ _
        constructor
        · intro e; exact Dvd.intro_left _ e.symm
        · intro d; exact (Nat.div_mul_cancel d).symm

/-- C11: in an accepted kernel build, for every `PAGE_SIZE` below `2 ^ 54` (so that the product
`PTLRPC_MAX_BRW_PAGES * PAGE_SIZE` stays within the 63 bits on which the signed and the unsigned
arithmetic of `#if` agree), the final `PTLRPC_MAX_BRW_SIZE` is at most `2 ^ 20` and at most
`PTL_MTU` when that is defined, and the final `PTLRPC_MAX_BRW_PAGES` is at most 512 and at most
`PTL_MD_MAX_IOV` when that is defined. -/
theorem brw_kernel_le (PAGE_SIZE : Nat) (PTL_MTU PTL_MD_MAX_IOV : Option Nat)
    (b : brw_max) (hps : PAGE_SIZE < 2 ^ 54)
    (h : brw_kernel PAGE_SIZE PTL_MTU PTL_MD_MAX_IOV = .ok b) :
    (b.PTLRPC_MAX_BRW_SIZE ≤ 2 ^ 20 ∧
      ∀ mtu, PTL_MTU = some mtu → b.PTLRPC_MAX_BRW_SIZE ≤ mtu) ∧
    (b.PTLRPC_MAX_BRW_PAGES ≤ 512 ∧
      ∀ iov, PTL_MD_MAX_IOV = some iov → b.PTLRPC_MAX_BRW_PAGES ≤ iov) := by
  obtain ⟨hc, -⟩ := brw_kernel_ok PAGE_SIZE PTL_MTU PTL_MD_MAX_IOV b h
  obtain ⟨r1, r2, r3, r4⟩ := brw_reduce_le PTL_MTU PTL_MD_MAX_IOV
  generalize brw_reduce PTL_MTU PTL_MD_MAX_IOV brw_define = r at hc r1 r2 r3 r4
  rw [brw_consistent, cpp_mul_eq _ _ r3 hps] at hc
  split at hc
  · rename_i hgt
    have : b = { r with PTLRPC_MAX_BRW_SIZE := r.PTLRPC_MAX_BRW_PAGES * PAGE_SIZE } := by
      simpa using hc.symm
    subst this
    refine ⟨⟨?_, ?_⟩, r3, r4⟩
    · show r.PTLRPC_MAX_BRW_PAGES * PAGE_SIZE ≤ 2 ^ 20
      omega
    · intro mtu hm
      have := r2 mtu hm
      show r.PTLRPC_MAX_BRW_PAGES * PAGE_SIZE ≤ mtu
      omega
  · split at hc
    · exact absurd hc (by simp)
    · rename_i h1 h2
      have : b = { r with PTLRPC_MAX_BRW_PAGES := r.PTLRPC_MAX_BRW_SIZE / PAGE_SIZE } := by
        simpa using hc.symm
      subst this
      have hpos : 0 < PAGE_SIZE := Nat.pos_of_ne_zero h2
      have hle : r.PTLRPC_MAX_BRW_SIZE / PAGE_SIZE ≤ r.PTLRPC_MAX_BRW_PAGES := by
        have : r.PTLRPC_MAX_BRW_SIZE ≤ r.PTLRPC_MAX_BRW_PAGES * PAGE_SIZE := by omega
        exact Nat.div_le_of_le_mul (by rwa [Nat.mul_comm] at this)
      refine ⟨⟨r1, r2⟩, ?_, ?_⟩
      · show r.PTLRPC_MAX_BRW_SIZE / PAGE_SIZE ≤ 512
        omega
      · intro iov hi
        have := r4 iov hi
        show r.PTLRPC_MAX_BRW_SIZE / PAGE_SIZE ≤ iov
        omega

theorem brw_kernel_le_witness :
    (4096 < 2 ^ 54 ∧ brw_kernel 4096 (some 65536) (some 256) = .ok ⟨65536, 16⟩) ∧
    (((⟨65536, 16⟩ : brw_max).PTLRPC_MAX_BRW_SIZE ≤ 2 ^ 20 ∧
      ∀ mtu, some 65536 = some mtu → (⟨65536, 16⟩ : brw_max).PTLRPC_MAX_BRW_SIZE ≤ mtu) ∧
    ((⟨65536, 16⟩ : brw_max).PTLRPC_MAX_BRW_PAGES ≤ 512 ∧
      ∀ iov, some 256 = some iov → (⟨65536, 16⟩ : brw_max).PTLRPC_MAX_BRW_PAGES ≤ iov)) :=
  ⟨⟨by decide, rfl⟩,
    brw_kernel_le 4096 (some 65536) (some 256) ⟨65536, 16⟩ (by decide) rfl⟩

/-! ## The swab masks -/

/-- Below 32 the operand `1 << idx` is the power of two, unharmed by the conversion. -/
theorem swab_bit_eq (idx : Nat) (h : idx < 32) : swab_bit idx = 2 ^ idx := by
  unfold swab_bit
  rw [Nat.one_shiftLeft]
  exact Nat.mod_eq_of_lt (Nat.pow_lt_pow_right (by decide) h)

theorem and_two_pow_eq_zero (m i : Nat) : m &&& 2 ^ i = 0 ↔ m.testBit i = false := by
  rw [Nat.and_two_pow]
  have := Nat.two_pow_pos i
  cases m.testBit i <;> simp

/-- What `LASSERT_REQSWAB` does in terms of the bits of the mask. -/
theorem LASSERT_REQSWAB_eq (rq : ptlrpc_request) (idx : Nat) :
    LASSERT_REQSWAB rq idx =
      if idx < 32 ∧ rq.rq_req_swab_mask.testBit idx = false then
        some { rq with rq_req_swab_mask := rq.rq_req_swab_mask ||| 2 ^ idx }
      else none := by
  unfold LASSERT_REQSWAB
  by_cases h : idx < 32
  · have hz := and_two_pow_eq_zero rq.rq_req_swab_mask idx
    by_cases hb : rq.rq_req_swab_mask.testBit idx = false
    · simp [swab_bit_eq idx h, h, hb, hz.mpr hb]
    · have hne : ¬ (rq.rq_req_swab_mask &&& 2 ^ idx = 0) := fun e => hb (hz.mp e)
      simp [swab_bit_eq idx h, h, hb, hne]
  · simp [h]

/-- What `LASSERT_REQSWABBED` tests in terms of the bits of the mask. -/
theorem LASSERT_REQSWABBED_eq (rq : ptlrpc_request) (idx : Nat) :
    LASSERT_REQSWABBED rq idx = (decide (idx < 32) && rq.rq_req_swab_mask.testBit idx) := by
  unfold LASSERT_REQSWABBED
  by_cases h : idx < 32
  · rw [swab_bit_eq idx h]
    have := and_two_pow_eq_zero rq.rq_req_swab_mask idx
    by_cases hb : rq.rq_req_swab_mask.testBit idx = false
    · simp [h, hb, this.mpr hb]
    · have hne : ¬ (rq.rq_req_swab_mask &&& 2 ^ idx = 0) := fun e => hb (this.mp e)
      simp [h, hne]
      simpa using hb
  · simp [h]

/-- A sequence of `LASSERT_REQSWAB` passes exactly when its indices are below 32, not yet
marked and pairwise distinct; it then marks its indices and nothing else. -/
theorem LASSERT_REQSWAB_seq_spec (idxs : List Nat) :
    ∀ rq : ptlrpc_request,
      ((LASSERT_REQSWAB_seq rq idxs).isSome ↔
        (∀ i ∈ idxs, i < 32 ∧ rq.rq_req_swab_mask.testBit i = false) ∧ idxs.Nodup) ∧
      ∀ out, LASSERT_REQSWAB_seq rq idxs = some out →
        out.rq_rep_swab_mask = rq.rq_rep_swab_mask ∧
        ∀ j, out.rq_req_swab_mask.testBit j =
          (rq.rq_req_swab_mask.testBit j || decide (j ∈ idxs)) := by
  induction idxs with
  | nil =>
    intro rq
    refine ⟨by simp [LASSERT_REQSWAB_seq], ?_⟩
    intro out h
    simp only [LASSERT_REQSWAB_seq, Option.some.injEq] at h
    subst h
    simp
  | cons i rest ih =>
    intro rq
    unfold LASSERT_REQSWAB_seq
    rw [LASSERT_REQSWAB_eq]
    by_cases hc : i < 32 ∧ rq.rq_req_swab_mask.testBit i = false
    · rw [if_pos hc]
      obtain ⟨ih1, ih2⟩ := ih { rq with rq_req_swab_mask := rq.rq_req_swab_mask ||| 2 ^ i }
      have hbit : ∀ j, (rq.rq_req_swab_mask ||| 2 ^ i).testBit j =
          (rq.rq_req_swab_mask.testBit j || decide (i = j)) := by
        intro j; rw [Nat.testBit_or, Nat.testBit_two_pow]
      constructor
      · show (LASSERT_REQSWAB_seq _ rest).isSome ↔ _
        rw [ih1]
        simp only [hbit, List.mem_cons, List.nodup_cons, Bool.or_eq_false_iff,
          decide_eq_false_iff_not]
        constructor
        · rintro ⟨h1, h2⟩
          refine ⟨?_, ?_, h2⟩
          · rintro j (rfl | hj)
            · exact hc
            · exact ⟨(h1 j hj).1, (h1 j hj).2.1⟩
          · intro hi; exact (h1 i hi).2.2 rfl
        · rintro ⟨h1, h2, h3⟩
          refine ⟨?_, h3⟩
          intro j hj
          refine ⟨(h1 j (Or.inr hj)).1, (h1 j (Or.inr hj)).2, ?_⟩
          rintro rfl; exact h2 hj
      · intro out h
        obtain ⟨e1, e2⟩ := ih2 out h
        refine ⟨e1, ?_⟩
        intro j
        rw [e2 j, hbit j]
        by_cases hij : i = j
        · subst hij; simp
        · have hji : ¬ j = i := fun e => hij e.symm
          simp [hij, hji]
    · rw [if_neg hc]
      constructor
      · simp only [Option.isSome_none, Bool.false_eq_true, false_iff]
        rintro ⟨h1, -⟩
        exact hc (h1 i (List.mem_cons_self _ _))
      · intro out h; exact absurd h (by simp)

/-- What `LASSERT_REPSWAB` does in terms of the bits of the mask. -/
theorem LASSERT_REPSWAB_eq (rq : ptlrpc_request) (idx : Nat) :
    LASSERT_REPSWAB rq idx =
      if idx < 32 ∧ rq.rq_rep_swab_mask.testBit idx = false then
        some { rq with rq_rep_swab_mask := rq.rq_rep_swab_mask ||| 2 ^ idx }
      else none := by
  unfold LASSERT_REPSWAB
  by_cases h : idx < 32
  · have hz := and_two_pow_eq_zero rq.rq_rep_swab_mask idx
    by_cases hb : rq.rq_rep_swab_mask.testBit idx = false
    · simp [swab_bit_eq idx h, h, hb, hz.mpr hb]
    · have hne : ¬ (rq.rq_rep_swab_mask &&& 2 ^ idx = 0) := fun e => hb (hz.mp e)
      simp [swab_bit_eq idx h, h, hb, hne]
  · simp [h]

/-- What `LASSERT_REPSWABBED` tests in terms of the bits of the mask. -/
theorem LASSERT_REPSWABBED_eq (rq : ptlrpc_request) (idx : Nat) :
    LASSERT_REPSWABBED rq idx = (decide (idx < 32) && rq.rq_rep_swab_mask.testBit idx) := by
  unfold LASSERT_REPSWABBED
  by_cases h : idx < 32
  · rw [swab_bit_eq idx h]
    have := and_two_pow_eq_zero rq.rq_rep_swab_mask idx
    by_cases hb : rq.rq_rep_swab_mask.testBit idx = false
    · simp [h, hb, this.mpr hb]
    · have hne : ¬ (rq.rq_rep_swab_mask &&& 2 ^ idx = 0) := fun e => hb (this.mp e)
      simp [h, hne]
      simpa using hb
  · simp [h]

/-- A sequence of `LASSERT_REPSWAB` passes exactly when its indices are below 32, not yet
marked and pairwise distinct; it then marks its indices and nothing else. -/
theorem LASSERT_REPSWAB_seq_spec (idxs : List Nat) :
    ∀ rq : ptlrpc_request,
      ((LASSERT_REPSWAB_seq rq idxs).isSome ↔
        (∀ i ∈ idxs, i < 32 ∧ rq.rq_rep_swab_mask.testBit i = false) ∧ idxs.Nodup) ∧
      ∀ out, LASSERT_REPSWAB_seq rq idxs = some out →
        out.rq_req_swab_mask = rq.rq_req_swab_mask ∧
        ∀ j, out.rq_rep_swab_mask.testBit j =
          (rq.rq_rep_swab_mask.testBit j || decide (j ∈ idxs)) := by
  induction idxs with
  | nil =>
    intro rq
    refine ⟨by simp [LASSERT_REPSWAB_seq], ?_⟩
    intro out h
    simp only [LASSERT_REPSWAB_seq, Option.some.injEq] at h
    subst h
    simp
  | cons i rest ih =>
    intro rq
    unfold LASSERT_REPSWAB_seq
    rw [LASSERT_REPSWAB_eq]
    by_cases hc : i < 32 ∧ rq.rq_rep_swab_mask.testBit i = false
    · rw [if_pos hc]
      obtain ⟨ih1, ih2⟩ := ih { rq with rq_rep_swab_mask := rq.rq_rep_swab_mask ||| 2 ^ i }
      have hbit : ∀ j, (rq.rq_rep_swab_mask ||| 2 ^ i).testBit j =
          (rq.rq_rep_swab_mask.testBit j || decide (i = j)) := by
        intro j; rw [Nat.testBit_or, Nat.testBit_two_pow]
      constructor
      · show (LASSERT_REPSWAB_seq _ rest).isSome ↔ _
        rw [ih1]
        simp only [hbit, List.mem_cons, List.nodup_cons, Bool.or_eq_false_iff,
          decide_eq_false_iff_not]
        constructor
        · rintro ⟨h1, h2⟩
          refine ⟨?_, ?_, h2⟩
          · rintro j (rfl | hj)
            · exact hc
            · exact ⟨(h1 j hj).1, (h1 j hj).2.1⟩
          · intro hi; exact (h1 i hi).2.2 rfl
        · rintro ⟨h1, h2, h3⟩
          refine ⟨?_, h3⟩
          intro j hj
          refine ⟨(h1 j (Or.inr hj)).1, (h1 j (Or.inr hj)).2, ?_⟩
          rintro rfl; exact h2 hj
      · intro out h
        obtain ⟨e1, e2⟩ := ih2 out h
        refine ⟨e1, ?_⟩
        intro j
        rw [e2 j, hbit j]
        by_cases hij : i = j
        · subst hij; simp
        · have hji : ¬ j = i := fun e => hij e.symm
          simp [hij, hji]
    · rw [if_neg hc]
      constructor
      · simp only [Option.isSome_none, Bool.false_eq_true, false_iff]
        rintro ⟨h1, -⟩
        exact hc (h1 i (List.mem_cons_self _ _))
      · intro out h; exact absurd h (by simp)

/-- C3: a sequence of `LASSERT_REQSWAB(rq, idx)` started with `rq_req_swab_mask == 0` passes all
its assertions if and only if every index is below 32 and the indices are pairwise distinct;
`LASSERT_REQSWAB` on an index that is already marked fails, in particular a second one on the
same index; and likewise for `LASSERT_REPSWAB` and `rq_rep_swab_mask`. -/
theorem swab_at_most_once (idxs : List Nat) (req rep : Nat) :
    (((LASSERT_REQSWAB_seq ⟨0, rep⟩ idxs).isSome ↔ (∀ i ∈ idxs, i < 32) ∧ idxs.Nodup) ∧
      (∀ rq idx, LASSERT_REQSWABBED rq idx = true → LASSERT_REQSWAB rq idx = none) ∧
      (∀ rq idx, (LASSERT_REQSWAB rq idx).bind (fun rq1 => LASSERT_REQSWAB rq1 idx) = none)) ∧
    (((LASSERT_REPSWAB_seq ⟨req, 0⟩ idxs).isSome ↔ (∀ i ∈ idxs, i < 32) ∧ idxs.Nodup) ∧
      (∀ rq idx, LASSERT_REPSWABBED rq idx = true → LASSERT_REPSWAB rq idx = none) ∧
      (∀ rq idx, (LASSERT_REPSWAB rq idx).bind (fun rq1 => LASSERT_REPSWAB rq1 idx) = none)) := by
  refine ⟨⟨?_, ?_, ?_⟩, ⟨?_, ?_, ?_⟩⟩
  · rw [(LASSERT_REQSWAB_seq_spec idxs ⟨0, rep⟩).1]
    simp
  · intro rq idx h
    rw [LASSERT_REQSWABBED_eq] at h
    rw [LASSERT_REQSWAB_eq]
    simp only [Bool.and_eq_true, decide_eq_true_eq] at h
    simp [h.2]
  · intro rq idx
    rw [LASSERT_REQSWAB_eq]
    split
    · show LASSERT_REQSWAB _ idx = none
      rw [LASSERT_REQSWAB_eq]
      simp [Nat.testBit_or, Nat.testBit_two_pow]
    · rfl
  · rw [(LASSERT_REPSWAB_seq_spec idxs ⟨req, 0⟩).1]
    simp
  · intro rq idx h
    rw [LASSERT_REPSWABBED_eq] at h
    rw [LASSERT_REPSWAB_eq]
    simp only [Bool.and_eq_true, decide_eq_true_eq] at h
    simp [h.2]
  · intro rq idx
    rw [LASSERT_REPSWAB_eq]
    split
    · show LASSERT_REPSWAB _ idx = none
      rw [LASSERT_REPSWAB_eq]
      simp [Nat.testBit_or, Nat.testBit_two_pow]
    · rfl

/-- C19: a `LASSERT_REQSWAB(rq, idx)` that passes leaves `rq_req_swab_mask` equal to the old
mask with bit `idx` added, so that `LASSERT_REQSWABBED(rq, idx)` passes, the answer for every
other index is as before and `rq_rep_swab_mask` is untouched (and likewise with the parts of
request and reply exchanged for `LASSERT_REPSWAB`); `LASSERT_REQSWABBED` fails for every index
from 32 on and for every index that no invocation has marked since the mask was 0. -/
theorem swab_marks_exactly (rq : ptlrpc_request) (idx : Nat) :
    (∀ rq1, LASSERT_REQSWAB rq idx = some rq1 →
      rq1.rq_req_swab_mask = rq.rq_req_swab_mask ||| 2 ^ idx ∧
      rq.rq_req_swab_mask.testBit idx = false ∧
      LASSERT_REQSWABBED rq1 idx = true ∧
      (∀ j, j ≠ idx → LASSERT_REQSWABBED rq1 j = LASSERT_REQSWABBED rq j) ∧
      rq1.rq_rep_swab_mask = rq.rq_rep_swab_mask) ∧
    (∀ rq1, LASSERT_REPSWAB rq idx = some rq1 →
      rq1.rq_rep_swab_mask = rq.rq_rep_swab_mask ||| 2 ^ idx ∧
      rq.rq_rep_swab_mask.testBit idx = false ∧
      LASSERT_REPSWABBED rq1 idx = true ∧
      (∀ j, j ≠ idx → LASSERT_REPSWABBED rq1 j = LASSERT_REPSWABBED rq j) ∧
      rq1.rq_req_swab_mask = rq.rq_req_swab_mask) ∧
    (32 ≤ idx → LASSERT_REQSWABBED rq idx = false ∧ LASSERT_REPSWABBED rq idx = false) ∧
    (∀ idxs out, rq.rq_req_swab_mask = 0 → LASSERT_REQSWAB_seq rq idxs = some out →
      idx ∉ idxs → LASSERT_REQSWABBED out idx = false) ∧
    (∀ idxs out, rq.rq_rep_swab_mask = 0 → LASSERT_REPSWAB_seq rq idxs = some out →
      idx ∉ idxs → LASSERT_REPSWABBED out idx = false) ∧
    LASSERT_REQSWAB ⟨0, 0⟩ 3 = some ⟨8, 0⟩ ∧ LASSERT_REPSWAB ⟨0, 0⟩ 31 = some ⟨0, 2 ^ 31⟩ := by
  refine ⟨?_, ?_, ?_, ?_, ?_, by decide, by decide⟩
  · intro rq1 h
    rw [LASSERT_REQSWAB_eq] at h
    split at h
    · rename_i hc
      simp only [Option.some.injEq] at h
      subst h
      refine ⟨rfl, hc.2, ?_, ?_, rfl⟩
      · rw [LASSERT_REQSWABBED_eq]
        simp [hc.1, Nat.testBit_or, Nat.testBit_two_pow]
      · intro j hj
        rw [LASSERT_REQSWABBED_eq, LASSERT_REQSWABBED_eq]
        have : ¬ idx = j := fun e => hj e.symm
        simp [Nat.testBit_or, Nat.testBit_two_pow, this]
    · exact absurd h (by simp)
  · intro rq1 h
    rw [LASSERT_REPSWAB_eq] at h
    split at h
    · rename_i hc
      simp only [Option.some.injEq] at h
      subst h
      refine ⟨rfl, hc.2, ?_, ?_, rfl⟩
      · rw [LASSERT_REPSWABBED_eq]
        simp [hc.1, Nat.testBit_or, Nat.testBit_two_pow]
      · intro j hj
        rw [LASSERT_REPSWABBED_eq, LASSERT_REPSWABBED_eq]
        have : ¬ idx = j := fun e => hj e.symm
        simp [Nat.testBit_or, Nat.testBit_two_pow, this]
    · exact absurd h (by simp)
  · intro h
    rw [LASSERT_REQSWABBED_eq, LASSERT_REPSWABBED_eq]
    have : ¬ idx < 32 := by omega
    simp [this]
  · intro idxs out h0 h hn
    obtain ⟨-, e⟩ := (LASSERT_REQSWAB_seq_spec idxs rq).2 out h
    rw [LASSERT_REQSWABBED_eq, e idx, h0]
    simp [hn]
  · intro idxs out h0 h hn
    obtain ⟨-, e⟩ := (LASSERT_REPSWAB_seq_spec idxs rq).2 out h
    rw [LASSERT_REPSWABBED_eq, e idx, h0]
    simp [hn]

/-! ## The reference count of a reply state -/

/-- Within the range of `int` the conversion to `int` changes nothing. -/
theorem to_int_eq (x : Int) (h1 : -2 ^ 31 ≤ x) (h2 : x < 2 ^ 31) : to_int x = x := by
  unfold to_int
  omega

/-- C4: for a reply state whose `rs_refcount` is `n`, `ptlrpc_rs_decref` calls
`lustre_free_reply_state` if and only if `n == 1`, then with the count at 0, and otherwise only
lowers the count to `n - 1`; `ptlrpc_rs_addref` and `ptlrpc_rs_decref` both fail their
assertion when `n <= 0`, and `ptlrpc_rs_addref` raises a positive count below `INT_MAX` by
one. -/
theorem rs_decref_frees_at_zero (n : Int) (freed : Bool) :
    (n ≤ 0 → ptlrpc_rs_addref ⟨n, freed⟩ = none ∧ ptlrpc_rs_decref ⟨n, freed⟩ = none) ∧
    (ptlrpc_rs_decref ⟨1, freed⟩ = some (lustre_free_reply_state ⟨0, freed⟩)) ∧
    (1 < n → n ≤ INT_MAX → ptlrpc_rs_decref ⟨n, freed⟩ = some ⟨n - 1, freed⟩) ∧
    (0 < n → n ≤ INT_MAX →
      ((∃ rs, ptlrpc_rs_decref ⟨n, false⟩ = some rs ∧ rs.freed = true) ↔ n = 1)) ∧
    (0 < n → n < INT_MAX → ptlrpc_rs_addref ⟨n, freed⟩ = some ⟨n + 1, freed⟩) := by
  unfold INT_MAX
  refine ⟨?_, ?_, ?_, ?_, ?_⟩
  · intro h
    have : ¬ n > 0 := by omega
    simp [ptlrpc_rs_addref, ptlrpc_rs_decref, this]
  · cases freed <;> decide
  · intro h1 h2
    have e : to_int (n - 1) = n - 1 := to_int_eq _ (by omega) (by omega)
    have hp : n > 0 := by omega
    have hne : ¬ n - 1 = 0 := by omega
    simp [ptlrpc_rs_decref, atomic_dec_and_test, e, hp, hne]
  · intro h1 h2
    have e : to_int (n - 1) = n - 1 := to_int_eq _ (by omega) (by omega)
    have hp : n > 0 := by omega
    by_cases h : n = 1
    · subst h
      simp [ptlrpc_rs_decref, atomic_dec_and_test, lustre_free_reply_state, to_int]
    · have hne : ¬ n - 1 = 0 := by omega
      simp [ptlrpc_rs_decref, atomic_dec_and_test, e, hp, hne, h]
  · intro h1 h2
    have e : to_int (n + 1) = n + 1 := to_int_eq _ (by omega) (by omega)
    have hp : n > 0 := by omega
    simp [ptlrpc_rs_addref, atomic_inc, e, hp]

/-! ## `llwp_consume_page` -/

theorem PAGE_SIZE_eq (PAGE_SHIFT : Nat) (h : PAGE_SHIFT < 64) :
    PAGE_SIZE PAGE_SHIFT = 2 ^ PAGE_SHIFT := by
  unfold PAGE_SIZE
  rw [Nat.one_shiftLeft]
  exact Nat.mod_eq_of_lt (Nat.pow_lt_pow_right (by decide) h)

/-- The mask `~PAGE_MASK` has the low `PAGE_SHIFT` bits set. -/
theorem not_PAGE_MASK (PAGE_SHIFT : Nat) (h : PAGE_SHIFT < 64) :
    not_u64 (PAGE_MASK PAGE_SHIFT) = 2 ^ PAGE_SHIFT - 1 := by
  unfold PAGE_MASK not_u64
  rw [PAGE_SIZE_eq PAGE_SHIFT h]
  have h1 := Nat.two_pow_pos PAGE_SHIFT
  have h2 : 2 ^ PAGE_SHIFT < 2 ^ 64 := Nat.pow_lt_pow_right (by decide) h
  omega

theorem to_u64_natCast (s : Nat) (h : s < 2 ^ 64) : to_u64 (s : Int) = s := by
  unfold to_u64
  omega

/-- The offset of a page is a multiple of the page size. -/
theorem page_off_dvd (index PAGE_SHIFT : Nat) (h : PAGE_SHIFT ≤ 64) :
    2 ^ PAGE_SHIFT ∣ (index * 2 ^ PAGE_SHIFT) % 2 ^ 64 :=
  (Nat.dvd_mod_iff (Nat.pow_dvd_pow 2 h)).2 (Dvd.intro_left _ rfl)

/-- The byte count of the page that straddles the end of the file. -/
theorem mod_of_straddle (P off s : Nat) (hd : P ∣ off) (h1 : off < s) (h2 : s < off + P) :
    s % P = s - off := by
  obtain ⟨q, rfl⟩ := hd
  have : s = P * q + (s - P * q) := by omega
  rw [this, Nat.mul_add_mod, Nat.mod_eq_of_lt (by omega)]
  omega

/-- The conversions and the minimum for the page that straddles the end of the file. -/
theorem straddle_facts (P off S : Nat) (h1 : off < S) (h2 : S < off + P) (hP : P ≤ 2 ^ 30) :
    to_int ((S - off : Nat) : Int) = ((S - off : Nat) : Int) ∧
    to_u64 ((S - off : Nat) : Int) = S - off ∧
    min (P : Int) ((S : Int) - (off : Int)) = ((S - off : Nat) : Int) ∧
    ¬ S - off = P ∧ ¬ ¬ ((S - off : Nat) : Int) ≥ 0 := by
  have hc : ((S - off : Nat) : Int) = (S : Int) - off := Nat.cast_sub h1.le
  refine ⟨to_int_eq _ (by omega) (by omega), to_u64_natCast _ (by omega), ?_, by omega, by omega⟩
  rw [hc]
  exact min_eq_right (by omega)

theorem straddle_not_whole (P off S : Nat) (h : off + P > S) :
    ¬ ((off : Int) + (P : Int) ≤ (S : Int)) := by
  omega

theorem whole_le (P off S : Nat) (h : ¬ off + P > S) : (off : Int) + (P : Int) ≤ (S : Int) := by
  omega

/-- The minimum for a page that lies wholly inside the file. -/
theorem whole_facts (P off S : Nat) (h2 : ¬ off + P > S) (hP : P ≤ 2 ^ 30) :
    min (P : Int) ((S : Int) - (off : Int)) = (P : Int) ∧ ¬ ¬ (P : Int) ≥ 0 := by
  refine ⟨min_eq_left (by omega), by omega⟩
theorem llwp_out_llwp (M : Nat) (l : ll_writeback_pages) (p : page) :
    (llwp_out M l p).llwp = l := by
  unfold llwp_out; split <;> rfl

theorem llwp_out_page (M : Nat) (l : ll_writeback_pages) (p : page) :
    (llwp_out M l p).page = p := by
  unfold llwp_out; split <;> rfl

theorem llwp_out_rc (M : Nat) (l : ll_writeback_pages) (p : page) :
    (llwp_out M l p).rc = if l.num_frags = 3 ∨ l.num_pages = M then -1 else 0 := by
  unfold llwp_out; split <;> rfl

/-- A page that lies inside the file and finds a free slot is put into that slot with the byte
count `min(PAGE_SIZE, i_size - off)`; the value returned is -1 if the batch is then full and 0
otherwise. -/
theorem llwp_consume_page_inside (PAGE_SHIFT LLWP_MAX_PAGES : Nat) (llwp : ll_writeback_pages)
    (ino : inode) (p : page) (hps : PAGE_SHIFT ≤ 30) (hsz : ino.i_size < 2 ^ 63)
    (hoff : (((p.index * 2 ^ PAGE_SHIFT) % 2 ^ 64 : Nat) : Int) < ino.i_size)
    (hslot : llwp.num_pages < LLWP_MAX_PAGES) :
    ∃ r, llwp_consume_page PAGE_SHIFT LLWP_MAX_PAGES llwp ino p = .ok r ∧
      r.page = page_cache_get p ∧
      r.llwp.num_pages = (llwp.num_pages + 1) % 2 ^ 29 ∧
      r.llwp.pgs = llwp.pgs.set llwp.num_pages
        ⟨p.addr, (p.index * 2 ^ PAGE_SHIFT) % 2 ^ 64,
          min ((2 ^ PAGE_SHIFT : Nat) : Int)
            (ino.i_size - (((p.index * 2 ^ PAGE_SHIFT) % 2 ^ 64 : Nat) : Int)),
          OBD_BRW_CREATE⟩ ∧
      r.rc = (if r.llwp.num_frags = 3 ∨ r.llwp.num_pages = LLWP_MAX_PAGES then -1 else 0) ∧
      r.llwp.has_whole_pages =
        (if (((p.index * 2 ^ PAGE_SHIFT) % 2 ^ 64 : Nat) : Int) + ((2 ^ PAGE_SHIFT : Nat) : Int) ≤
            ino.i_size ∧ llwp.has_whole_pages = 0 then 1 else llwp.has_whole_pages) ∧
      r.llwp.num_frags =
        (if (((p.index * 2 ^ PAGE_SHIFT) % 2 ^ 64 : Nat) : Int) + ((2 ^ PAGE_SHIFT : Nat) : Int) ≤
            ino.i_size ∧ ¬ llwp.has_whole_pages = 0 then llwp.num_frags
          else (llwp.num_frags + 1) % 4) := by
  obtain ⟨S⟩ := ino
  simp only at hsz hoff ⊢
  have hd := page_off_dvd p.index PAGE_SHIFT (by omega)
  have hlt : (p.index * 2 ^ PAGE_SHIFT) % 2 ^ 64 < 2 ^ 64 := Nat.mod_lt _ (by decide)
  have hP1 := Nat.two_pow_pos PAGE_SHIFT
  have hP2 : 2 ^ PAGE_SHIFT ≤ 2 ^ 30 := Nat.pow_le_pow_right (by decide) hps
  unfold llwp_consume_page
  simp only [PAGE_SIZE_eq PAGE_SHIFT (by omega), not_PAGE_MASK PAGE_SHIFT (by omega)]
  generalize (p.index * 2 ^ PAGE_SHIFT) % 2 ^ 64 = off at hd hlt hoff ⊢
  have hand : ∀ x : Nat, x &&& (2 ^ PAGE_SHIFT - 1) = x % 2 ^ PAGE_SHIFT :=
    fun x => Nat.and_pow_two_sub_one_eq_mod x PAGE_SHIFT
  generalize 2 ^ PAGE_SHIFT = P at hd hP1 hP2 hand ⊢
  lift S to Nat using (by omega)
  have hS : S < 2 ^ 63 := by omega
  have hoS : off < S := by omega
  have e1 : to_u64 (S : Int) = S := to_u64_natCast S (by omega)
  have e2 : to_int (P : Int) = P := to_int_eq _ (by omega) (by omega)
  have e3 : to_u64 (P : Int) = P := to_u64_natCast P (by omega)
  simp only [e1, e2, e3]
  rw [if_neg (by omega), if_neg (by omega)]
  have hmod : (off + P) % 2 ^ 64 = off + P := Nat.mod_eq_of_lt (by omega)
  rw [hmod]
  clear hmod hlt hsz hoff e1
  by_cases hst : off + P > S
  · obtain ⟨e4, e5, hmin, hne, hge⟩ := straddle_facts P off S hoS hst hP2
    have hm : S &&& (P - 1) = S - off := by
      rw [hand]; exact mod_of_straddle P off S hd hoS hst
    rw [if_pos hst]
    simp only [hm, e4, e5, hmin]
    rw [if_neg hne, if_neg hge]
    have hnw : ¬ ((off : Int) + (P : Int) ≤ (S : Int)) := straddle_not_whole P off S hst
    refine ⟨_, rfl, ?_⟩
    simp only [llwp_out_llwp, llwp_out_page, llwp_out_rc, hnw, false_and, if_false]
    and_intros <;> first | exact True.intro | rfl
  · obtain ⟨hmin, hge⟩ := whole_facts P off S hst hP2
    rw [if_neg hst]
    simp only [e2, e3, hmin]
    rw [if_neg hge]
    simp only [if_true]
    refine ⟨_, rfl, ?_⟩
    simp only [llwp_out_llwp, llwp_out_page, llwp_out_rc]
    have hwh : (off : Int) + (P : Int) ≤ (S : Int) := whole_le P off S hst
    by_cases hw : llwp.has_whole_pages = 0
    · simp only [hw, if_true, hwh, true_and, not_true_eq_false, and_false, if_false]
      and_intros <;> first | exact True.intro | rfl
    · simp only [hw, if_false, hwh, true_and, not_false_eq_true, and_true, and_false, if_true]
      first | exact True.intro | rfl

/-- The arithmetic of the byte count `min(PAGE_SIZE, i_size - off)`. -/
theorem min_count_facts (P S off : Int) (hP : 0 < P) (h : off < S) :
    off + min P (S - off) ≤ S ∧ (S < off + P → off + min P (S - off) = S) ∧
      0 < min P (S - off) ∧ min P (S - off) ≤ P := by
  rcases le_total P (S - off) with hle | hle
  · rw [min_eq_left hle]; omega
  · rw [min_eq_right hle]; omega

/-- C5 fails when the inserted page fills the batch: with pages of 4096 bytes, a batch of two
slots of which one is taken, and a file of 10000 bytes, the page with index 1 lies inside the
file and is stored in slot 1, and the function returns -1 because `num_pages` has reached
`LLWP_MAX_PAGES`. -/
theorem llwp_consume_page_full :
    (llwp_example.num_pages < 2 ∧
      (((page_example.index * 2 ^ 12) % 2 ^ 64 : Nat) : Int) < (⟨10000⟩ : inode).i_size) ∧
    llwp_consume_page 12 2 llwp_example ⟨10000⟩ page_example =
      .ok ⟨⟨1, 1, 2, [⟨3, 0, 4096, OBD_BRW_CREATE⟩, ⟨7, 4096, 4096, OBD_BRW_CREATE⟩]⟩,
        ⟨7, 1, true, 2⟩, -1⟩ :=
  ⟨by decide, rfl⟩

/-- What an insertion does, in full: a page whose offset `index << PAGE_SHIFT` is below
`i_size`, met by a batch with `num_pages < LLWP_MAX_PAGES`, is stored in `pgs[num_pages]` and
gets a reference; `num_pages` goes up by one; a page that lies wholly inside the file starts the
fragment of whole pages if there is none yet, a page that straddles the end of the file is a
fragment of its own; and the function returns -1 if the batch is full after that (`num_frags`
is 3 or `num_pages` is `LLWP_MAX_PAGES`) and 0 otherwise.  Here `PAGE_SIZE` fits an `int`,
`i_size` a `loff_t`, and `pgs` has `LLWP_MAX_PAGES` entries. -/
theorem llwp_consume_page_inserts (PAGE_SHIFT LLWP_MAX_PAGES : Nat) (llwp : ll_writeback_pages)
    (ino : inode) (p : page) (hps : PAGE_SHIFT ≤ 30) (hsz : ino.i_size < 2 ^ 63)
    (hlen : llwp.pgs.length = LLWP_MAX_PAGES)
    (hoff : (((p.index * 2 ^ PAGE_SHIFT) % 2 ^ 64 : Nat) : Int) < ino.i_size)
    (hslot : llwp.num_pages < LLWP_MAX_PAGES) :
    ∃ r pg, llwp_consume_page PAGE_SHIFT LLWP_MAX_PAGES llwp ino p = .ok r ∧
      r.llwp.pgs[llwp.num_pages]? = some pg ∧ pg.pg = p.addr ∧
      pg.off = (p.index * 2 ^ PAGE_SHIFT) % 2 ^ 64 ∧ pg.flag = OBD_BRW_CREATE ∧
      r.llwp.num_pages = (llwp.num_pages + 1) % 2 ^ 29 ∧
      r.page.count = atomic_inc p.count ∧
      r.llwp.has_whole_pages =
        (if (((p.index * 2 ^ PAGE_SHIFT) % 2 ^ 64 : Nat) : Int) + ((2 ^ PAGE_SHIFT : Nat) : Int) ≤
            ino.i_size ∧ llwp.has_whole_pages = 0 then 1 else llwp.has_whole_pages) ∧
      r.llwp.num_frags =
        (if (((p.index * 2 ^ PAGE_SHIFT) % 2 ^ 64 : Nat) : Int) + ((2 ^ PAGE_SHIFT : Nat) : Int) ≤
            ino.i_size ∧ ¬ llwp.has_whole_pages = 0 then llwp.num_frags
          else (llwp.num_frags + 1) % 4) ∧
      r.rc = (if r.llwp.num_frags = 3 ∨ r.llwp.num_pages = LLWP_MAX_PAGES then -1 else 0) := by
  obtain ⟨r, h1, h2, h3, h4, h5, h6, h7⟩ :=
    llwp_consume_page_inside PAGE_SHIFT LLWP_MAX_PAGES llwp ino p hps hsz hoff hslot
  have hs : llwp.num_pages < llwp.pgs.length := by rw [hlen]; exact hslot
  have hget := congrArg (fun l : List brw_page => l[llwp.num_pages]?) h4
  simp only [List.getElem?_set, if_pos hs, if_true] at hget
  refine ⟨r, _, h1, hget, ?_⟩
  exact ⟨rfl, rfl, rfl, h3, by rw [h2]; rfl, h6, h7, h5⟩

/-- With room left in the batch the function returns 0: a first whole page put into an empty
batch of four slots. -/
theorem llwp_consume_page_zero :
    llwp_consume_page 12 4 ⟨0, 0, 0, [default, default, default, default]⟩ ⟨10000⟩
        ⟨3, 0, true, 1⟩ =
      .ok ⟨⟨1, 1, 1, [⟨3, 0, 4096, OBD_BRW_CREATE⟩, default, default, default]⟩,
        ⟨3, 0, true, 2⟩, 0⟩ :=
  rfl

/-- C6: for a page that raced with truncate, its offset `index << PAGE_SHIFT` being at or
beyond `i_size`, `llwp_consume_page` leaves the batch as it is (`num_pages`, `num_frags`,
`has_whole_pages` and every entry of `pgs`), takes no reference on the page and unlocks it. -/
theorem llwp_consume_page_truncated (PAGE_SHIFT LLWP_MAX_PAGES : Nat)
    (llwp : ll_writeback_pages) (ino : inode) (p : page)
    (hoff : (p.index * 2 ^ PAGE_SHIFT) % 2 ^ 64 ≥ to_u64 ino.i_size) :
    ∃ r, llwp_consume_page PAGE_SHIFT LLWP_MAX_PAGES llwp ino p = .ok r ∧
      r.llwp = llwp ∧ r.page.count = p.count ∧ r.page.locked = false ∧
      r.page.index = p.index ∧ r.page.addr = p.addr := by
  unfold llwp_consume_page
  simp only []
  rw [if_pos hoff]
  refine ⟨_, rfl, ?_⟩
  unfold llwp_out
  split <;> simp [unlock_page]

theorem llwp_consume_page_truncated_witness :
    (page_example.index * 2 ^ 12) % 2 ^ 64 ≥ to_u64 (⟨4096⟩ : inode).i_size ∧
    ∃ r, llwp_consume_page 12 2 llwp_example ⟨4096⟩ page_example = .ok r ∧
      r.llwp = llwp_example ∧ r.page.count = page_example.count ∧ r.page.locked = false ∧
      r.page.index = page_example.index ∧ r.page.addr = page_example.addr :=
  ⟨by decide, llwp_consume_page_truncated 12 2 llwp_example ⟨4096⟩ page_example (by decide)⟩

/-- C7: for a page inserted by `llwp_consume_page` (its offset `off` is a multiple of
`PAGE_SIZE` below `i_size`) the byte count recorded is `min(PAGE_SIZE, i_size - off)`, so that
`off + count` is at most `i_size`, and equal to `i_size` for the page that straddles the end of
the file.  Here `PAGE_SIZE` fits an `int`, `i_size` a `loff_t`, and `pgs` has `LLWP_MAX_PAGES`
entries. -/
theorem llwp_consume_page_count (PAGE_SHIFT LLWP_MAX_PAGES : Nat) (llwp : ll_writeback_pages)
    (ino : inode) (p : page) (hps : PAGE_SHIFT ≤ 30) (hsz : ino.i_size < 2 ^ 63)
    (hlen : llwp.pgs.length = LLWP_MAX_PAGES)
    (hoff : (((p.index * 2 ^ PAGE_SHIFT) % 2 ^ 64 : Nat) : Int) < ino.i_size)
    (hslot : llwp.num_pages < LLWP_MAX_PAGES) :
    ∃ r pg, llwp_consume_page PAGE_SHIFT LLWP_MAX_PAGES llwp ino p = .ok r ∧
      r.llwp.pgs[llwp.num_pages]? = some pg ∧
      PAGE_SIZE PAGE_SHIFT ∣ pg.off ∧
      pg.count = min (PAGE_SIZE PAGE_SHIFT : Int) (ino.i_size - pg.off) ∧
      (pg.off : Int) + pg.count ≤ ino.i_size ∧
      (ino.i_size < (pg.off : Int) + PAGE_SIZE PAGE_SHIFT →
        (pg.off : Int) + pg.count = ino.i_size) := by
  obtain ⟨r, h1, h2, h3, h4, h5⟩ :=
    llwp_consume_page_inside PAGE_SHIFT LLWP_MAX_PAGES llwp ino p hps hsz hoff hslot
  have hs : llwp.num_pages < llwp.pgs.length := by rw [hlen]; exact hslot
  have hP : (0 : Int) < ((2 ^ PAGE_SHIFT : Nat) : Int) :=
    Int.ofNat_lt.mpr (Nat.two_pow_pos PAGE_SHIFT)
  obtain ⟨m1, m2, -, -⟩ := min_count_facts _ _ _ hP hoff
  have hget := congrArg (fun l : List brw_page => l[llwp.num_pages]?) h4
  simp only [List.getElem?_set, if_pos hs, if_true] at hget
  refine ⟨r, _, h1, hget, ?_⟩
  rw [PAGE_SIZE_eq PAGE_SHIFT (by omega)]
  exact ⟨page_off_dvd p.index PAGE_SHIFT (by omega), rfl, m1, m2⟩

theorem llwp_consume_page_count_witness :
    ((12 ≤ 30 ∧ (⟨6000⟩ : inode).i_size < 2 ^ 63 ∧ llwp_example4.pgs.length = 4) ∧
      (((page_example.index * 2 ^ 12) % 2 ^ 64 : Nat) : Int) < (⟨6000⟩ : inode).i_size ∧
      llwp_example4.num_pages < 4) ∧
    ∃ r pg, llwp_consume_page 12 4 llwp_example4 ⟨6000⟩ page_example = .ok r ∧
      r.llwp.pgs[llwp_example4.num_pages]? = some pg ∧
      PAGE_SIZE 12 ∣ pg.off ∧
      pg.count = min (PAGE_SIZE 12 : Int) ((⟨6000⟩ : inode).i_size - pg.off) ∧
      (pg.off : Int) + pg.count ≤ (⟨6000⟩ : inode).i_size ∧
      ((⟨6000⟩ : inode).i_size < (pg.off : Int) + PAGE_SIZE 12 →
        (pg.off : Int) + pg.count = (⟨6000⟩ : inode).i_size) :=
  ⟨⟨⟨by decide, by decide, by decide⟩, by decide, by decide⟩,
    llwp_consume_page_count 12 4 llwp_example4 ⟨6000⟩ page_example (by decide) (by decide)
      (by decide) (by decide) (by decide)⟩

/-- C8: for an inode with `i_size >= 0` the assertion `LASSERT(pg->count >= 0)` of
`llwp_consume_page` does not fail, and every page that reaches it (it lies inside the file and
has found a slot) is recorded with a byte count that is positive and at most `PAGE_SIZE`. -/
theorem llwp_consume_page_count_pos (PAGE_SHIFT LLWP_MAX_PAGES : Nat)
    (llwp : ll_writeback_pages) (ino : inode) (p : page) (hps : PAGE_SHIFT ≤ 30)
    (h0 : 0 ≤ ino.i_size) (hsz : ino.i_size < 2 ^ 63) :
    llwp_consume_page PAGE_SHIFT LLWP_MAX_PAGES llwp ino p ≠ .error .lbug ∧
    (¬ (p.index * 2 ^ PAGE_SHIFT) % 2 ^ 64 ≥ to_u64 ino.i_size →
      llwp.num_pages < LLWP_MAX_PAGES → llwp.pgs.length = LLWP_MAX_PAGES →
      ∃ r pg, llwp_consume_page PAGE_SHIFT LLWP_MAX_PAGES llwp ino p = .ok r ∧
        r.llwp.pgs[llwp.num_pages]? = some pg ∧
        0 < pg.count ∧ pg.count ≤ PAGE_SIZE PAGE_SHIFT) := by
  have key : ¬ (p.index * 2 ^ PAGE_SHIFT) % 2 ^ 64 ≥ to_u64 ino.i_size →
      (((p.index * 2 ^ PAGE_SHIFT) % 2 ^ 64 : Nat) : Int) < ino.i_size := by
    generalize (p.index * 2 ^ PAGE_SHIFT) % 2 ^ 64 = off
    unfold to_u64
    omega
  constructor
  · by_cases ht : (p.index * 2 ^ PAGE_SHIFT) % 2 ^ 64 ≥ to_u64 ino.i_size
    · unfold llwp_consume_page
      simp only []
      rw [if_pos ht]
      exact fun h => nomatch h
    · by_cases hslot : llwp.num_pages < LLWP_MAX_PAGES
      · obtain ⟨r, hr, -⟩ :=
          llwp_consume_page_inside PAGE_SHIFT LLWP_MAX_PAGES llwp ino p hps hsz (key ht) hslot
        rw [hr]; exact fun h => nomatch h
      · unfold llwp_consume_page
        simp only []
        rw [if_neg ht, if_pos hslot]
        exact fun h => nomatch h
  · intro ht hslot hlen
    obtain ⟨r, h1, h2, h3, h4, h5⟩ :=
      llwp_consume_page_inside PAGE_SHIFT LLWP_MAX_PAGES llwp ino p hps hsz (key ht) hslot
    have hs : llwp.num_pages < llwp.pgs.length := by rw [hlen]; exact hslot
    have hP : (0 : Int) < ((2 ^ PAGE_SHIFT : Nat) : Int) :=
      Int.ofNat_lt.mpr (Nat.two_pow_pos PAGE_SHIFT)
    obtain ⟨-, -, m3, m4⟩ := min_count_facts _ _ _ hP (key ht)
    have hget := congrArg (fun l : List brw_page => l[llwp.num_pages]?) h4
    simp only [List.getElem?_set, if_pos hs, if_true] at hget
    refine ⟨r, _, h1, hget, ?_⟩
    rw [PAGE_SIZE_eq PAGE_SHIFT (by omega)]
    exact ⟨m3, m4⟩

theorem llwp_consume_page_count_pos_witness :
    (12 ≤ 30 ∧ 0 ≤ (⟨6000⟩ : inode).i_size ∧ (⟨6000⟩ : inode).i_size < 2 ^ 63) ∧
    (llwp_consume_page 12 4 llwp_example4 ⟨6000⟩ page_example ≠ .error .lbug ∧
    (¬ (page_example.index * 2 ^ 12) % 2 ^ 64 ≥ to_u64 (⟨6000⟩ : inode).i_size →
      llwp_example4.num_pages < 4 → llwp_example4.pgs.length = 4 →
      ∃ r pg, llwp_consume_page 12 4 llwp_example4 ⟨6000⟩ page_example = .ok r ∧
        r.llwp.pgs[llwp_example4.num_pages]? = some pg ∧
        0 < pg.count ∧ pg.count ≤ PAGE_SIZE 12)) :=
  ⟨⟨by decide, by decide, by decide⟩,
    llwp_consume_page_count_pos 12 4 llwp_example4 ⟨6000⟩ page_example (by decide) (by decide)
      (by decide)⟩

/-! ### Rearrangement and frame -/

/-- Writing back the entry that was read changes nothing. -/
theorem set_getD_self :
    ∀ (l : List brw_page) (i : Nat), i < l.length → l.set i (l.getD i default) = l := by
  intro l
  induction l with
  | nil => intro i h; simp at h
  | cons a l ih =>
    intro i h
    cases i with
    | zero => rfl
    | succ i =>
      have hi : i < l.length := by simpa using h
      simpa using ih i hi

/-- Exchanging the entry in front of a list with one inside it. -/
theorem cons_set_perm (t h : brw_page) :
    ∀ (T : List brw_page) (b : Nat), b < T.length → (t :: T.set b h).Perm (h :: T.set b t) := by
  intro T
  induction T with
  | nil => intro b hb; simp at hb
  | cons y T ih =>
    intro b hb
    cases b with
    | zero => exact List.Perm.swap _ _ _
    | succ c =>
      have hc : c < T.length := by simpa using hb
      simp only [List.set_cons_succ]
      exact (List.Perm.swap y t _).trans
        (((ih c hc).cons y).trans (List.Perm.swap h y _))

/-- Moving the entry at `a` to the later place `b` and putting `t` at `a` rearranges the list
that has `t` at `b`. -/
theorem set_set_perm (t : brw_page) :
    ∀ (L : List brw_page) (a b : Nat) (x : brw_page), a < b → b < L.length → L[a]? = some x →
      ((L.set b x).set a t).Perm (L.set b t) := by
  intro L
  induction L with
  | nil => intro a b x _ hb; simp at hb
  | cons h T ih =>
    intro a b x hab hb hx
    obtain ⟨c, rfl⟩ : ∃ c, b = c + 1 := ⟨b - 1, by omega⟩
    have hc : c < T.length := by simpa using hb
    cases a with
    | zero =>
      simp only [List.getElem?_cons_zero, Option.some.injEq] at hx
      subst hx
      simp only [List.set_cons_succ, List.set_cons_zero]
      exact cons_set_perm t h T c hc
    | succ a =>
      simp only [List.getElem?_cons_succ] at hx
      simp only [List.set_cons_succ]
      exact (ih a c x (by omega) hc hx).cons h

/-- The innermost loop followed by `array[j] = tmp` rearranges the array that has `tmp` at the
place where the loop started, and leaves the places behind it alone. -/
theorem sort_while_perm (stride : Nat) (hs : 0 < stride) (tmp : brw_page) :
    ∀ (fuel : Nat) (array : List brw_page) (j : Nat) (out : List brw_page) (k : Nat),
      j < array.length → sort_while fuel stride tmp array j = some (out, k) →
        out.length = array.length ∧ k ≤ j ∧ (out.set k tmp).Perm (array.set j tmp) ∧
          ∀ m, j < m → out[m]? = array[m]? := by
  intro fuel
  induction fuel with
  | zero => intro array j out k _ h; simp [sort_while] at h
  | succ fuel ih =>
    intro array j out k hj h
    unfold sort_while at h
    split at h
    · rename_i hc
      have hj2 : j - stride < (array.set j (array.getD (j - stride) default)).length := by
        rw [List.length_set]; omega
      obtain ⟨e1, e2, e3, e4⟩ := ih _ _ out k hj2 h
      rw [List.length_set] at e1
      refine ⟨e1, by omega, e3.trans ?_, ?_⟩
      · refine set_set_perm tmp array (j - stride) j _ (by omega) hj ?_
        rw [List.getD_eq_getElem?_getD, List.getElem?_eq_getElem (by omega : j - stride < array.length)]
        rfl
      · intro m hm
        rw [e4 m (by omega), List.getElem?_set_ne (by omega)]
    · simp only [Option.some.injEq, Prod.mk.injEq] at h
      obtain ⟨rfl, rfl⟩ := h
      exact ⟨rfl, le_refl _, List.Perm.refl _, fun _ _ => rfl⟩

/-- A pass rearranges the array and leaves the places from `num` on alone. -/
theorem sort_for_perm (stride : Nat) (hs : 0 < stride) (num : Int) :
    ∀ (fuel : Nat) (array : List brw_page) (i : Nat) (out : List brw_page),
      num ≤ array.length → sort_for fuel stride num array i = some out →
        out.length = array.length ∧ out.Perm array ∧
          ∀ m : Nat, num ≤ (m : Int) → out[m]? = array[m]? := by
  intro fuel
  induction fuel with
  | zero => intro array i out _ h; simp [sort_for] at h
  | succ fuel ih =>
    intro array i out hlen h
    unfold sort_for at h
    split at h
    · rename_i hlt
      have hi : i < array.length := by omega
      simp only [] at h
      split at h
      · exact absurd h (by simp)
      · rename_i a1 j hw
        obtain ⟨e1, e2, e3, e4⟩ :=
          sort_while_perm stride hs (array.getD i default) (i + 1) array i a1 j hi hw
        have hself : array.set i (array.getD i default) = array := set_getD_self array i hi
        rw [hself] at e3
        obtain ⟨g1, g2, g3⟩ := ih (a1.set j (array.getD i default)) (i + 1) out
          (by rw [List.length_set, e1]; exact hlen) h
        rw [List.length_set, e1] at g1
        refine ⟨g1, g2.trans e3, ?_⟩
        intro m hm
        rw [g3 m hm, List.getElem?_set_ne (by omega), e4 m (by omega)]
    · simp only [Option.some.injEq] at h
      subst h
      exact ⟨rfl, List.Perm.refl _, fun _ _ => rfl⟩

/-- The passes with decreasing stride rearrange the array and leave the places from `num` on
alone. -/
theorem sort_do_perm (num : Int) :
    ∀ (fuel m : Nat) (array out : List brw_page), num ≤ array.length →
      sort_do fuel num array (strideSeq (m + 1)) = some out →
        out.length = array.length ∧ out.Perm array ∧
          ∀ k : Nat, num ≤ (k : Int) → out[k]? = array[k]? := by
  intro fuel
  induction fuel with
  | zero => intro m array out _ h; simp [sort_do] at h
  | succ fuel ih =>
    intro m array out hlen h
    unfold sort_do at h
    rw [strideSeq_div] at h
    split at h
    · exact absurd h (by simp)
    · rename_i a1 hp
      obtain ⟨e1, e2, e3⟩ := sort_for_perm (strideSeq m) (strideSeq_pos m) num _ array _ a1 hlen hp
      split at h
      · rename_i hgt
        obtain ⟨m', rfl⟩ : ∃ m', m = m' + 1 := by
          cases m with
          | zero => simp [strideSeq] at hgt
          | succ m' => exact ⟨m', rfl⟩
        obtain ⟨g1, g2, g3⟩ := ih m' a1 out (by rw [e1]; exact hlen) h
        exact ⟨by rw [g1, e1], g2.trans e2, fun k hk => by rw [g3 k hk, e3 k hk]⟩
      · simp only [Option.some.injEq] at h
        subst h
        exact ⟨e1, e2, e3⟩

/-- A first stride that has been found is a member of the sequence of increments. -/
theorem sort_stride_mem (num : Int) :
    ∀ (fuel k s : Nat), sort_stride fuel num (strideSeq k) = some s →
      ∃ m, s = strideSeq m ∧ k ≤ m ∧ num ≤ (s : Int) := by
  intro fuel
  induction fuel with
  | zero => intro k s h; simp [sort_stride] at h
  | succ fuel ih =>
    intro k s h
    unfold sort_stride at h
    split at h
    · split at h
      · exact absurd h (by simp)
      · obtain ⟨m, e1, e2, e3⟩ := ih (k + 1) s h
        exact ⟨m, e1, by omega, e3⟩
    · rename_i hlt
      simp only [Option.some.injEq] at h
      subst h
      exact ⟨k, rfl, le_refl _, by omega⟩

/-- A call with `num >= 2` that returns has run the passes from a member of the sequence of
increments on. -/
theorem sort_brw_pages_some_eq (array out : List brw_page) (num : Int) (h2 : 2 ≤ num)
    (h : sort_brw_pages array num = some out) :
    ∃ fuel m, sort_do fuel num array (strideSeq (m + 1)) = some out := by
  unfold sort_brw_pages at h
  rw [if_neg (by omega)] at h
  split at h
  · exact absurd h (by simp)
  · rename_i s hs
    obtain ⟨m, e1, _, e3⟩ := sort_stride_mem num _ 0 s hs
    subst e1
    cases m with
    | zero => simp [strideSeq] at e3; omega
    | succ m => exact ⟨_, m, h⟩

/-- What a call that returns has done: a rearrangement that leaves the places from `num` on
alone. -/
theorem sort_brw_pages_perm (array out : List brw_page) (num : Int)
    (hlen : num ≤ array.length) (h : sort_brw_pages array num = some out) :
    out.length = array.length ∧ out.Perm array ∧
      ∀ k : Nat, num ≤ (k : Int) → out[k]? = array[k]? := by
  by_cases h2 : 2 ≤ num
  · obtain ⟨fuel, m, hd⟩ := sort_brw_pages_some_eq array out num h2 h
    exact sort_do_perm num fuel m array out hlen hd
  · have : out = array := by
      by_cases h1 : num = 1
      · simp only [sort_brw_pages, if_pos h1, Option.some.injEq] at h
        exact h.symm
      · rw [sort_brw_pages_nonpos array num (by omega)] at h
        simpa using h.symm
    subst this
    exact ⟨rfl, List.Perm.refl _, fun _ _ => rfl⟩

/-! ### The strides of the passes -/

theorem mem_strideList (s : Nat) : ∀ m, s ∈ strideList m ↔ ∃ k, k ≤ m ∧ s = strideSeq k := by
  intro m
  induction m with
  | zero =>
    simp only [strideList, List.mem_singleton]
    constructor
    · intro h; exact ⟨0, le_refl _, h⟩
    · rintro ⟨k, hk, rfl⟩
      have : k = 0 := by omega
      rw [this]
  | succ m ih =>
    simp only [strideList, List.mem_cons, ih]
    constructor
    · rintro (h | ⟨k, hk, h⟩)
      · exact ⟨m + 1, le_refl _, h⟩
      · exact ⟨k, by omega, h⟩
    · rintro ⟨k, hk, h⟩
      rcases Nat.eq_or_lt_of_le hk with rfl | hlt
      · exact Or.inl h
      · exact Or.inr ⟨k, by omega, h⟩

theorem strideList_pairwise : ∀ m, (strideList m).Pairwise (fun a b => a > b) := by
  intro m
  induction m with
  | zero => simp [strideList]
  | succ m ih =>
    simp only [strideList, List.pairwise_cons]
    refine ⟨?_, ih⟩
    intro s hs
    obtain ⟨k, hk, rfl⟩ := (mem_strideList s m).mp hs
    exact strideSeq_strictMono (by omega)

theorem strideList_getLast : ∀ m, (strideList m).getLast? = some 1 := by
  intro m
  induction m with
  | zero => rfl
  | succ m ih =>
    cases hm : strideList m with
    | nil => rw [hm] at ih; simp at ih
    | cons a l =>
      rw [hm] at ih
      simp only [strideList, hm]
      rw [List.getLast?_cons_cons]
      exact ih

/-- The recording loop computes the same array as the loop `sort_do`. -/
theorem sort_do_trace_fst (num : Int) :
    ∀ (fuel : Nat) (array : List brw_page) (stride : Nat),
      (sort_do_trace fuel num array stride).map Prod.fst = sort_do fuel num array stride := by
  intro fuel
  induction fuel with
  | zero => intro array stride; rfl
  | succ fuel ih =>
    intro array stride
    unfold sort_do_trace sort_do
    cases hp : sort_for (num.toNat + 1) (stride / 3) num array (stride / 3) with
    | none => rfl
    | some a1 =>
      simp only []
      by_cases hgt : stride / 3 > 1
      · rw [if_pos hgt, if_pos hgt, ← ih a1 (stride / 3)]
        cases sort_do_trace fuel num a1 (stride / 3) with
        | none => rfl
        | some r => rfl
      · rw [if_neg hgt, if_neg hgt]
        rfl

/-- The recording function computes the same array as `sort_brw_pages`. -/
theorem sort_brw_pages_trace_fst (array : List brw_page) (num : Int) :
    (sort_brw_pages_trace array num).map Prod.fst = sort_brw_pages array num := by
  unfold sort_brw_pages_trace sort_brw_pages
  by_cases h1 : num = 1
  · rw [if_pos h1, if_pos h1]; rfl
  · rw [if_neg h1, if_neg h1]
    cases sort_stride (num.toNat + 1) num 1 with
    | none => rfl
    | some s => exact sort_do_trace_fst num _ array s

/-- Started from the increment `strideSeq (m + 1)` with enough fuel, the loop finishes after
passes with the strides `strideSeq m, ..., strideSeq 0`. -/
theorem sort_do_trace_some (num : Int) :
    ∀ (m fuel : Nat) (array : List brw_page), m < fuel →
      ∃ out, sort_do_trace fuel num array (strideSeq (m + 1)) = some (out, strideList m) := by
  intro m
  induction m with
  | zero =>
    intro fuel array hf
    obtain ⟨f, rfl⟩ : ∃ f, fuel = f + 1 := ⟨fuel - 1, by omega⟩
    obtain ⟨a1, e1, -⟩ := sort_for_some (strideSeq 0) (strideSeq_pos _) num
      (num.toNat + 1) array (strideSeq 0) (by omega) (by omega)
    refine ⟨a1, ?_⟩
    unfold sort_do_trace
    rw [strideSeq_div]
    simp only [e1]
    rw [if_neg (by simp [strideSeq])]
    rfl
  | succ m ih =>
    intro fuel array hf
    obtain ⟨f, rfl⟩ : ∃ f, fuel = f + 1 := ⟨fuel - 1, by omega⟩
    obtain ⟨a1, e1, -⟩ := sort_for_some (strideSeq (m + 1)) (strideSeq_pos _) num
      (num.toNat + 1) array (strideSeq (m + 1)) (by omega) (by omega)
    obtain ⟨out, g1⟩ := ih f a1 (by omega)
    refine ⟨out, ?_⟩
    unfold sort_do_trace
    rw [strideSeq_div]
    simp only [e1]
    rw [if_pos (by have := strideSeq_ge (m + 1); omega), g1]
    rfl

/-- For `2 ≤ num ≤ SORT_NUM_MAX` the function returns after passes with the strides
`strideSeq m, ..., strideSeq 0`, where `strideSeq m` is the largest increment below `num`. -/
theorem sort_brw_pages_trace_some (array : List brw_page) (num : Int) (h2 : 2 ≤ num)
    (hof : num ≤ SORT_NUM_MAX) :
    ∃ m out, sort_brw_pages_trace array num = some (out, strideList m) ∧
      (strideSeq m : Int) < num ∧ num ≤ (strideSeq (m + 1) : Int) := by
  obtain ⟨m, e1, _, e3, e4⟩ := sort_stride_some num hof (num.toNat + 1) 0 (by omega)
    (by simp only [strideSeq]; omega)
  cases m with
  | zero => simp [strideSeq] at e3; omega
  | succ m =>
    obtain ⟨out, ho⟩ := sort_do_trace_some num m (strideSeq (m + 1) + 1) array
      (by have := strideSeq_ge (m + 1); omega)
    refine ⟨m, out, ?_, e4 m (by omega) (by omega), e3⟩
    have h1 : ¬ num = 1 := by omega
    simp only [strideSeq] at e1
    simp only [sort_brw_pages_trace, if_neg h1, e1]
    exact ho

/-- For `num ≤ 1` the function returns the array as it is: at once for 1, and otherwise after
one pass with stride 0 that does not enter its loop. -/
theorem sort_brw_pages_trace_small (array : List brw_page) (num : Int) (h : num ≤ 1) :
    ∃ strides, sort_brw_pages_trace array num = some (array, strides) := by
  by_cases h1 : num = 1
  · exact ⟨[], by simp only [sort_brw_pages_trace, if_pos h1]⟩
  · have hn : num.toNat = 0 := by omega
    have h2 : ¬ ((1 : Nat) : Int) < num := by omega
    have h3 : ¬ (((1 / 3 : Nat) : Nat) : Int) < num := by
      simp only [Nat.reduceDiv]; omega
    have e1 : sort_stride (0 + 1) num 1 = some 1 := by
      simp only [sort_stride, if_neg h2]
    have e2 : sort_for (0 + 1) (1 / 3) num array (1 / 3) = some array := by
      simp only [sort_for, if_neg h3]
    refine ⟨[1 / 3], ?_⟩
    simp only [sort_brw_pages_trace, if_neg h1, hn, e1]
    simp only [sort_do_trace, hn, e2]
    simp

/-- Beyond `SORT_NUM_MAX` the search for the first stride leaves the range of `int`, whatever
the fuel. -/
theorem sort_stride_overflow (num : Int) (h : SORT_NUM_MAX < num) :
    ∀ (fuel k : Nat), k ≤ 19 → sort_stride fuel num (strideSeq k) = none := by
  intro fuel
  induction fuel with
  | zero => intro k _; rfl
  | succ fuel ih =>
    intro k hk
    have h19 := strideSeq_19
    have hle : strideSeq k ≤ strideSeq 19 := strideSeq_strictMono.monotone hk
    unfold sort_stride
    rw [if_pos (by omega)]
    rcases Nat.eq_or_lt_of_le hk with rfl | hlt
    · rw [if_pos (by simp only [INT_MAX, SORT_NUM_MAX] at *; omega)]
    · have hle2 : strideSeq (k + 1) ≤ strideSeq 19 := strideSeq_strictMono.monotone hlt
      simp only [strideSeq] at hle2
      rw [if_neg (by simp only [INT_MAX, SORT_NUM_MAX] at *; omega)]
      exact ih (k + 1) hlt

/-! ### The claims on rearrangement, termination and frame -/

/-- Within the model a call with `num ≤ SORT_NUM_MAX` returns. -/
theorem sort_brw_pages_some (array : List brw_page) (num : Int) (hof : num ≤ SORT_NUM_MAX) :
    ∃ out, sort_brw_pages array num = some out := by
  rw [← sort_brw_pages_trace_fst]
  by_cases h2 : 2 ≤ num
  · obtain ⟨m, out, e, -, -⟩ := sort_brw_pages_trace_some array num h2 hof
    exact ⟨out, by rw [e]; rfl⟩
  · obtain ⟨s, e⟩ := sort_brw_pages_trace_small array num (by omega)
    exact ⟨array, by rw [e]; rfl⟩

/-- A rearrangement that leaves the places from `n` on alone rearranges the first `n` places. -/
theorem take_perm_of_frame (out array : List brw_page) (n : Nat) (hp : out.Perm array)
    (hf : ∀ k : Nat, n ≤ k → out[k]? = array[k]?) : (out.take n).Perm (array.take n) := by
  have hd : out.drop n = array.drop n := by
    apply List.ext_getElem?
    intro k
    rw [List.getElem?_drop, List.getElem?_drop]
    exact hf (n + k) (by omega)
  have h1 : (out.take n ++ out.drop n).Perm (array.take n ++ array.drop n) := by
    rw [List.take_append_drop, List.take_append_drop]
    exact hp
  rw [hd] at h1
  exact (List.perm_append_right_iff _).mp h1

/-- C16: for every array and every `num` from 0 to the length of the array, a call of
`sort_brw_pages` that returns leaves in `array[0..num)` a rearrangement of the records (whole
`brw_page` records) that were there before, none lost, doubled or altered; and the call does
return for `num` up to `SORT_NUM_MAX`. -/
theorem sort_brw_pages_rearranges (array : List brw_page) (num : Int) (h0 : 0 ≤ num)
    (hlen : num ≤ array.length) :
    (∀ out, sort_brw_pages array num = some out →
      out.length = array.length ∧ (out.take num.toNat).Perm (array.take num.toNat)) ∧
    (num ≤ SORT_NUM_MAX → ∃ out, sort_brw_pages array num = some out) := by
  refine ⟨?_, sort_brw_pages_some array num⟩
  intro out h
  obtain ⟨e1, e2, e3⟩ := sort_brw_pages_perm array out num hlen h
  refine ⟨e1, take_perm_of_frame out array num.toNat e2 ?_⟩
  intro k hk
  exact e3 k (by omega)

theorem sort_brw_pages_rearranges_witness :
    ((0 : Int) ≤ 5 ∧ (5 : Int) ≤ (pagesOfOffsets [5, 5, 6, 7, 0]).length) ∧
    ((∀ out, sort_brw_pages (pagesOfOffsets [5, 5, 6, 7, 0]) 5 = some out →
      out.length = (pagesOfOffsets [5, 5, 6, 7, 0]).length ∧
        (out.take (5 : Int).toNat).Perm ((pagesOfOffsets [5, 5, 6, 7, 0]).take (5 : Int).toNat)) ∧
    ((5 : Int) ≤ SORT_NUM_MAX → ∃ out, sort_brw_pages (pagesOfOffsets [5, 5, 6, 7, 0]) 5 = some out)) :=
  ⟨⟨by decide, by decide⟩,
    sort_brw_pages_rearranges (pagesOfOffsets [5, 5, 6, 7, 0]) 5 (by decide) (by decide)⟩

/-- C17 fails beyond `SORT_NUM_MAX`: for `num` 1743392201 the loop that looks for the first
stride has reached 1743392200, still below `num`, and its next step `stride*3 + 1` is
5230176601, outside `int`; the model yields no result whatever the fuel. -/
theorem sort_brw_pages_overflow :
    ((strideSeq 19 : Int) < 1743392201 ∧ ((strideSeq 19 * 3 + 1 : Nat) : Int) > INT_MAX) ∧
    (∀ fuel, sort_stride fuel 1743392201 1 = none) ∧
    sort_brw_pages [] 1743392201 = none ∧ sort_brw_pages_trace [] 1743392201 = none := by
  have h : ∀ fuel, sort_stride fuel 1743392201 1 = none := fun fuel =>
    sort_stride_overflow 1743392201 (by decide) fuel 0 (by decide)
  have h19 := strideSeq_19
  refine ⟨⟨?_, ?_⟩, h, ?_, ?_⟩
  · simp only [SORT_NUM_MAX] at h19; omega
  · simp only [SORT_NUM_MAX, INT_MAX] at *; omega
  · simp only [sort_brw_pages, h]; rfl
  · simp only [sort_brw_pages_trace, h]; rfl

/-- C17 as amended: `sort_brw_pages` returns for every `num` up to `SORT_NUM_MAX`, 0 and the
negative values included; for `num >= 2` the strides of its passes are exactly the members of
the sequence 1, 4, 13, 40, ... that are smaller than `num`, in strictly decreasing order, the
last pass having stride 1. -/
theorem sort_brw_pages_terminates (array : List brw_page) (num : Int)
    (hof : num ≤ SORT_NUM_MAX) :
    ∃ out strides, sort_brw_pages_trace array num = some (out, strides) ∧
      sort_brw_pages array num = some out ∧
      (2 ≤ num →
        (∀ s : Nat, s ∈ strides ↔ ∃ k, s = strideSeq k ∧ (s : Int) < num) ∧
        strides.Pairwise (fun a b => a > b) ∧ strides.getLast? = some 1) := by
  by_cases h2 : 2 ≤ num
  · obtain ⟨m, out, e, hm1, hm2⟩ := sort_brw_pages_trace_some array num h2 hof
    refine ⟨out, strideList m, e, by rw [← sort_brw_pages_trace_fst, e]; rfl, ?_⟩
    intro _
    refine ⟨?_, strideList_pairwise m, strideList_getLast m⟩
    intro s
    rw [mem_strideList]
    constructor
    · rintro ⟨k, hk, rfl⟩
      refine ⟨k, rfl, ?_⟩
      have : strideSeq k ≤ strideSeq m := strideSeq_strictMono.monotone hk
      omega
    · rintro ⟨k, rfl, hlt⟩
      refine ⟨k, ?_, rfl⟩
      by_contra hk
      have : strideSeq (m + 1) ≤ strideSeq k := strideSeq_strictMono.monotone (by omega)
      omega
  · obtain ⟨s, e⟩ := sort_brw_pages_trace_small array num (by omega)
    exact ⟨array, s, e, by rw [← sort_brw_pages_trace_fst, e]; rfl, fun h => absurd h h2⟩

theorem sort_brw_pages_terminates_witness :
    (5 : Int) ≤ SORT_NUM_MAX ∧
    ∃ out strides, sort_brw_pages_trace (pagesOfOffsets [5, 5, 6, 7, 0]) 5 = some (out, strides) ∧
      sort_brw_pages (pagesOfOffsets [5, 5, 6, 7, 0]) 5 = some out ∧
      ((2 : Int) ≤ 5 →
        (∀ s : Nat, s ∈ strides ↔ ∃ k, s = strideSeq k ∧ (s : Int) < 5) ∧
        strides.Pairwise (fun a b => a > b) ∧ strides.getLast? = some 1) :=
  ⟨by decide, sort_brw_pages_terminates (pagesOfOffsets [5, 5, 6, 7, 0]) 5 (by decide)⟩

/-- C18: for every array and every `num` up to the length of the array, a call of
`sort_brw_pages` that returns has left the entries at the indices from `num` on as they were,
and for `num <= 1` it returns with the whole array as it was; and the call does return for
`num` up to `SORT_NUM_MAX`. -/
theorem sort_brw_pages_frame (array : List brw_page) (num : Int)
    (hlen : num ≤ array.length) :
    (∀ out, sort_brw_pages array num = some out →
      out.length = array.length ∧ ∀ k : Nat, num ≤ (k : Int) → out[k]? = array[k]?) ∧
    (num ≤ 1 → sort_brw_pages array num = some array) ∧
    (num ≤ SORT_NUM_MAX → ∃ out, sort_brw_pages array num = some out) := by
  refine ⟨?_, ?_, sort_brw_pages_some array num⟩
  · intro out h
    obtain ⟨e1, -, e3⟩ := sort_brw_pages_perm array out num hlen h
    exact ⟨e1, e3⟩
  · intro h1
    obtain ⟨s, e⟩ := sort_brw_pages_trace_small array num h1
    rw [← sort_brw_pages_trace_fst, e]
    rfl

theorem sort_brw_pages_frame_witness :
    (3 : Int) ≤ (pagesOfOffsets [5, 5, 0, 7, 6]).length ∧
    ((∀ out, sort_brw_pages (pagesOfOffsets [5, 5, 0, 7, 6]) 3 = some out →
      out.length = (pagesOfOffsets [5, 5, 0, 7, 6]).length ∧
        ∀ k : Nat, (3 : Int) ≤ (k : Int) → out[k]? = (pagesOfOffsets [5, 5, 0, 7, 6])[k]?) ∧
    ((3 : Int) ≤ 1 → sort_brw_pages (pagesOfOffsets [5, 5, 0, 7, 6]) 3 =
      some (pagesOfOffsets [5, 5, 0, 7, 6])) ∧
    ((3 : Int) ≤ SORT_NUM_MAX → ∃ out, sort_brw_pages (pagesOfOffsets [5, 5, 0, 7, 6]) 3 = some out)) :=
  ⟨by decide, sort_brw_pages_frame (pagesOfOffsets [5, 5, 0, 7, 6]) 3 (by decide)⟩

/-! ## `ptlrpc_bulk_active` -/

/-- C21: for every bulk descriptor whose lock is free, `ptlrpc_bulk_active` returns the value
of `bd_network_rw`, hence nonzero exactly when that flag is set, and leaves the descriptor as
it was in every field: `bd_network_rw`, `bd_success`, `bd_type`, `bd_registered`, the byte
counts and the lock, which it has released again. -/
theorem ptlrpc_bulk_active_pure (desc : ptlrpc_bulk_desc) (hl : desc.bd_lock = false) :
    ∃ rc, ptlrpc_bulk_active desc = some (desc, rc) ∧ rc = desc.bd_network_rw ∧
      (rc ≠ 0 ↔ desc.bd_network_rw ≠ 0) := by
  obtain ⟨a, b, c, d, l, e, f, g, h, i, j, k⟩ := desc
  simp only at hl
  subst hl
  refine ⟨(b : Int), rfl, rfl, ?_⟩
  simp

theorem ptlrpc_bulk_active_pure_witness :
    bulk_desc_example.bd_lock = false ∧
    ∃ rc, ptlrpc_bulk_active bulk_desc_example = some (bulk_desc_example, rc) ∧
      rc = bulk_desc_example.bd_network_rw ∧
      (rc ≠ 0 ↔ bulk_desc_example.bd_network_rw ≠ 0) :=
  ⟨rfl, ptlrpc_bulk_active_pure bulk_desc_example rfl⟩

/-! ## The wire codec -/

theorem get32_put32 (x : Nat) (hx : x < 2 ^ 32) (rest : List Nat) :
    get32 (put32 x ++ rest) = some (x, rest) := by
  simp only [put32, List.cons_append, List.nil_append, get32, Option.some.injEq, Prod.mk.injEq,
    and_true]
  omega

theorem length_put32 (x : Nat) : (put32 x).length = 4 := rfl

theorem length_put_lens : ∀ lens : List Nat, (put_lens lens).length = 4 * lens.length := by
  intro lens
  induction lens with
  | nil => rfl
  | cons l ls ih =>
    simp only [put_lens, List.length_append, length_put32, ih, List.length_cons]
    omega

theorem get_lens_put_lens :
    ∀ (lens rest : List Nat), (∀ l ∈ lens, l < 2 ^ 32) →
      get_lens lens.length (put_lens lens ++ rest) = some (lens, rest) := by
  intro lens
  induction lens with
  | nil => intro rest _; rfl
  | cons l ls ih =>
    intro rest h
    simp only [put_lens, List.length_cons, get_lens, List.append_assoc]
    rw [get32_put32 l (h l (List.mem_cons_self _ _))]
    simp only []
    rw [ih rest (fun x hx => h x (List.mem_cons_of_mem _ hx))]

theorem le_size_round (align len : Nat) (h : 0 < align) : len ≤ size_round align len := by
  unfold size_round
  have h1 := Nat.lt_mul_div_succ (len + (align - 1)) h
  rw [Nat.mul_add, Nat.mul_one, Nat.mul_comm] at h1
  omega

theorem length_put_bodies (align : Nat) (h : 0 < align) :
    ∀ segs : List (List Nat),
      (put_bodies align segs).length = ((segs.map List.length).map (size_round align)).sum := by
  intro segs
  induction segs with
  | nil => rfl
  | cons s ss ih =>
    have := le_size_round align s.length h
    simp only [put_bodies, List.length_append, List.length_replicate, ih, List.map_cons,
      List.sum_cons]
    omega

theorem get_bodies_put_bodies (align : Nat) (h : 0 < align) :
    ∀ segs : List (List Nat),
      get_bodies align (segs.map List.length) (put_bodies align segs) = some segs := by
  intro segs
  induction segs with
  | nil => rfl
  | cons s ss ih =>
    have hle := le_size_round align s.length h
    have hlen : (s ++ List.replicate (size_round align s.length - s.length) 0).length =
        size_round align s.length := by
      rw [List.length_append, List.length_replicate]; omega
    simp only [List.map_cons, put_bodies, get_bodies]
    rw [if_neg (by rw [List.length_append, hlen]; omega), List.drop_left' hlen, ih]
    simp only []
    rw [List.append_assoc, List.take_left' rfl]

/-- C15: for every valid segment list whose message size is within the maximum, packing yields
a buffer of that size from which unpacking gets the header and the same segments back; a
segment list whose message size exceeds the maximum fails with `MessageTooLarge`, and no buffer
is written. -/
theorem codec_round_trip (p : codec_params) (hdr : msg_header) (bufs : List (List Nat))
    (hv : codec_valid p hdr bufs) :
    (lustre_msg_size p (bufs.map List.length) ≤ p.max_size →
      ∃ m, lustre_pack_request p hdr bufs = .ok m ∧
        m.length = lustre_msg_size p (bufs.map List.length) ∧
        lustre_unpack_msg p m m.length = .ok (hdr, bufs)) ∧
    (p.max_size < lustre_msg_size p (bufs.map List.length) →
      lustre_pack_request p hdr bufs = .error .MessageTooLarge) := by
  obtain ⟨ha, hver, h1, h2, h3, h4, h5⟩ := hv
  constructor
  · intro hsz
    refine ⟨_, by unfold lustre_pack_request; rw [if_neg (by omega)], ?_, ?_⟩
    · simp only [List.length_append, length_put32, length_put_lens, length_put_bodies _ ha,
        lustre_msg_size, List.length_map]
      omega
    · unfold lustre_unpack_msg
      rw [if_neg (by simp), get32_put32 _ h1]
      simp only []
      rw [if_neg (by simp [hver]), get32_put32 _ h2]
      simp only []
      rw [get32_put32 _ h3]
      simp only []
      rw [get32_put32 _ h4]
      simp only []
      have hl := get_lens_put_lens (bufs.map List.length) (put_bodies p.align bufs)
        (by simpa using h5)
      rw [List.length_map] at hl
      rw [hl]
      simp only []
      rw [get_bodies_put_bodies _ ha]
  · intro hsz
    unfold lustre_pack_request
    rw [if_pos hsz]

theorem codec_round_trip_witness :
    codec_valid ⟨8, 4096, 1⟩ ⟨1, 6, 0⟩ [[1, 2, 3], [], [9, 8, 7, 6, 5, 4, 3, 2, 1]] ∧
    ((lustre_msg_size ⟨8, 4096, 1⟩
        ([[1, 2, 3], [], [9, 8, 7, 6, 5, 4, 3, 2, 1]].map List.length) ≤
        (⟨8, 4096, 1⟩ : codec_params).max_size →
      ∃ m, lustre_pack_request ⟨8, 4096, 1⟩ ⟨1, 6, 0⟩
          [[1, 2, 3], [], [9, 8, 7, 6, 5, 4, 3, 2, 1]] = .ok m ∧
        m.length = lustre_msg_size ⟨8, 4096, 1⟩
          ([[1, 2, 3], [], [9, 8, 7, 6, 5, 4, 3, 2, 1]].map List.length) ∧
        lustre_unpack_msg ⟨8, 4096, 1⟩ m m.length =
          .ok (⟨1, 6, 0⟩, [[1, 2, 3], [], [9, 8, 7, 6, 5, 4, 3, 2, 1]])) ∧
    ((⟨8, 4096, 1⟩ : codec_params).max_size < lustre_msg_size ⟨8, 4096, 1⟩
        ([[1, 2, 3], [], [9, 8, 7, 6, 5, 4, 3, 2, 1]].map List.length) →
      lustre_pack_request ⟨8, 4096, 1⟩ ⟨1, 6, 0⟩
        [[1, 2, 3], [], [9, 8, 7, 6, 5, 4, 3, 2, 1]] = .error .MessageTooLarge)) :=
  ⟨by unfold codec_valid; decide,
    codec_round_trip ⟨8, 4096, 1⟩ ⟨1, 6, 0⟩ [[1, 2, 3], [], [9, 8, 7, 6, 5, 4, 3, 2, 1]]
      (by unfold codec_valid; decide)⟩

end Lustre
